import Mathlib

/-
Verification development for the stack-set rollout engine of the
cloudformation-seed repository (src/cloudformation_seed/cfn_stackset.py).

Shallow embedding conventions:
  - account identifiers, OU identifiers and region names are opaque values;
    they are modelled as Nat (the code never inspects their contents, it
    only compares and orders them);
  - a Python set of regions is a Finset Nat; a Python dict mapping targets
    to region sets is an insertion-ordered association list
    List (Nat × Finset Nat), matching dict iteration order;
  - remote reads (list_stack_instances, describe_stack_instance) are passed
    in as explicit parameters: the instances dict built by retrieve and a
    Remote record of the per-instance describe responses;
  - the SHA-1 digest used by calculate_overrides_checksum is implemented in
    full (pure, kernel-computable), together with the Python repr encoding
    of the override dictionaries that feeds it.
-/

/-! Lexicographic byte order on strings, matching Python string comparison
    (code-point lexicographic), used to model sorted() with string keys. -/

def charsLe : List Char → List Char → Bool
  | [], _ => true
  | _ :: _, [] => false
  | a :: as, b :: bs =>
    if a.toNat < b.toNat then true
    else if b.toNat < a.toNat then false
    else charsLe as bs

def strLe (a b : String) : Bool := charsLe a.toList b.toList

/-! SHA-1, translated from the standard algorithm used by hashlib.sha1.
    Words are Nat values kept below 2^32 by explicit reduction mod m32. -/

def m32 : Nat := 4294967296

def rotl (n x : Nat) : Nat := (x * 2 ^ n) % m32 + x / 2 ^ (32 - n)

def toWords : List Nat → List Nat
  | b0 :: b1 :: b2 :: b3 :: rest => (((b0 * 256 + b1) * 256 + b2) * 256 + b3) :: toWords rest
  | _ => []

def sha1pad (msg : List Nat) : List Nat :=
  let len := msg.length
  let bitlen := 8 * len
  let k := (119 - len % 64) % 64
  msg ++ [128] ++ List.replicate k 0 ++
    [bitlen / 2 ^ 56 % 256, bitlen / 2 ^ 48 % 256, bitlen / 2 ^ 40 % 256, bitlen / 2 ^ 32 % 256,
     bitlen / 2 ^ 24 % 256, bitlen / 2 ^ 16 % 256, bitlen / 2 ^ 8 % 256, bitlen % 256]

def sha1schedule (ws : List Nat) : List Nat :=
  (List.range 64).foldl (fun ws j =>
    ws ++ [rotl 1 (ws.getD (j + 13) 0 ^^^ ws.getD (j + 8) 0 ^^^ ws.getD (j + 2) 0 ^^^ ws.getD j 0)]) ws

def sha1round (w : List Nat) (st : Nat × Nat × Nat × Nat × Nat) (i : Nat) :
    Nat × Nat × Nat × Nat × Nat :=
  let (a, b, c, d, e) := st
  let fk : Nat × Nat :=
    if i < 20 then ((b &&& c) ||| ((m32 - 1 - b) &&& d), 1518500249)
    else if i < 40 then (b ^^^ c ^^^ d, 1859775393)
    else if i < 60 then ((b &&& c) ||| (b &&& d) ||| (c &&& d), 2400959708)
    else (b ^^^ c ^^^ d, 3395469782)
  let temp := (rotl 5 a + fk.1 + e + fk.2 + w.getD i 0) % m32
  (temp, a, rotl 30 b, c, d)

def sha1chunk (hs : Nat × Nat × Nat × Nat × Nat) (chunk : List Nat) :
    Nat × Nat × Nat × Nat × Nat :=
  let w := sha1schedule (toWords chunk)
  let (h0, h1, h2, h3, h4) := hs
  let (a, b, c, d, e) := (List.range 80).foldl (sha1round w) (h0, h1, h2, h3, h4)
  ((h0 + a) % m32, (h1 + b) % m32, (h2 + c) % m32, (h3 + d) % m32, (h4 + e) % m32)

def sha1words (msg : List Nat) : List Nat :=
  let padded := sha1pad msg
  let cs := (List.range (padded.length / 64)).map (fun i => (padded.drop (64 * i)).take 64)
  let hs := cs.foldl sha1chunk (1732584193, 4023233417, 2562383102, 271733878, 3285377520)
  [hs.1, hs.2.1, hs.2.2.1, hs.2.2.2.1, hs.2.2.2.2]

def hexChar (n : Nat) : Char := "0123456789abcdef".toList.getD n (Char.ofNat 48)

def wordHex (w : Nat) : List Char := (List.range 8).map (fun i => hexChar (w / 16 ^ (7 - i) % 16))

/-- Hex digest of SHA-1 over a byte list, as returned by hashlib hexdigest. -/
def sha1hex (msg : List Nat) : String := String.mk ((sha1words msg).map wordHex).flatten

/-- UTF-8 encoding of a string to bytes, as bytes(s, "utf-8") in Python. -/
def utf8Bytes (s : String) : List Nat :=
  (s.toList.map (fun c =>
    let n := c.toNat
    if n < 128 then [n]
    else if n < 2048 then [192 + n / 64, 128 + n % 64]
    else if n < 65536 then [224 + n / 4096, 128 + n / 64 % 64, 128 + n % 64]
    else [240 + n / 262144, 128 + n / 4096 % 64, 128 + n / 64 % 64, 128 + n % 64])).flatten

/-! Parameter overrides. A Python override item is the dict
    \x7b"ParameterKey": k, "ParameterValue": v\x7d with string values. -/

structure Override where
  ParameterKey : String
  ParameterValue : String
deriving DecidableEq, Repr

/-- Python repr of one override dict, with the keys in the construction
    order used throughout the source (ParameterKey first). Single-quoted
    string repr is faithful for values without quotes or escapes. -/
def pyRepr (o : Override) : String :=
  "\x7b\x27ParameterKey\x27: \x27" ++ o.ParameterKey ++ "\x27, \x27ParameterValue\x27: \x27" ++
    o.ParameterValue ++ "\x27\x7d"

/-- Sort key of one override item inside calculate_overrides_checksum,
    the format_map result of the pattern ParameterKey dash ParameterValue. -/
def fmtKey (o : Override) : String := o.ParameterKey ++ "-" ++ o.ParameterValue

def fmtLe (a b : Override) : Prop := strLe (fmtKey a) (fmtKey b) = true

instance : DecidableRel fmtLe := fun a b => instDecidableEqBool (strLe (fmtKey a) (fmtKey b)) true

/-- Sort relation used by region_need_update and the tests: sorted by the
    ParameterKey field alone. -/
def keyLe (a b : Override) : Prop := strLe a.ParameterKey b.ParameterKey = true

instance : DecidableRel keyLe := fun a b => instDecidableEqBool (strLe a.ParameterKey b.ParameterKey) true

/-! Rollout configuration entries. A rollout config item is the dict
    \x7baccount, regions, override\x7d; the delete pass builds entries whose
    override is the empty dict, modelled as the empty list (the only use of
    a delete override is a length-zero test in the checksum). -/

structure Entry where
  account : Nat
  regions : Finset Nat
  override : List Override
deriving DecidableEq

instance : Inhabited Entry := ⟨⟨0, ∅, []⟩⟩

/-- StackSetRollout.calculate_overrides_checksum: the reserved fingerprint
    for an empty override collection is the single dash; otherwise the hex
    digest of SHA-1 over the concatenated utf-8 reprs of the items sorted
    by fmtKey (sha1sum.update per item hashes their concatenation). -/
def calculate_overrides_checksum (account : Entry) : String :=
  if account.override.length = 0 then "-"
  else sha1hex (((List.insertionSort fmtLe account.override).map (fun i => utf8Bytes (pyRepr i))).flatten)

/-! Remote state. The instances dict produced by retrieve is passed as an
    association list (account to set of regions, in listing order); the
    describe_stack_instance responses feeding region_need_update are a
    Remote record: per account and region, the current parameter overrides
    (already projected to ParameterKey and ParameterValue, as the source
    does on lines 147-148) and the instance status string. -/

structure Remote where
  overridesAt : Nat → Nat → List Override
  statusAt : Nat → Nat → String

def lookupD (instances : List (Nat × Finset Nat)) (k : Nat) : Finset Nat :=
  (instances.lookup k).getD ∅

/-- StackSetRollout.region_need_update: true when the current overrides,
    sorted by ParameterKey, differ from the desired overrides sorted the
    same way, or when the instance status is not CURRENT. -/
def region_need_update (remote : Remote) (account_id region : Nat) (overrides : List Override) : Bool :=
  let current_overrides := remote.overridesAt account_id region
  if List.insertionSort keyLe current_overrides ≠ List.insertionSort keyLe overrides then true
  else if remote.statusAt account_id region ≠ "CURRENT" then true
  else false

/-- StackSetOrganizationRollout.ou_region_need_update is constantly true. -/
def ou_region_need_update (ou_id region : Nat) (overrides : List Override) : Bool := true

/-- StackSetRollout.find_or_add_account combined with the single mutation
    its callers perform on the returned entry (regions.add region): find the
    first entry with the same account and override and add the region to its
    set; otherwise append a shallow copy carrying a fresh set holding just
    the region. -/
def find_or_add_account (coll : List Entry) (account : Entry) (region : Nat) : List Entry :=
  match coll with
  | [] => [⟨account.account, {region}, account.override⟩]
  | xa :: rest =>
    if xa.account = account.account ∧ xa.override = account.override then
      ⟨xa.account, insert region xa.regions, xa.override⟩ :: rest
    else xa :: find_or_add_account rest account region

/-- Ascending enumeration of a finite set of naturals, used wherever Python
    iterates a region set: every element is at most the sup, so filtering the
    range below sup + 1 lists exactly the elements in ascending order. -/
def ascList (s : Finset Nat) : List Nat :=
  (List.range (s.sup id + 1)).filter (fun r => decide (r ∈ s))

/-- StackSetRollout.set_create_or_update_account acting on the pair of the
    create and update lists. An account absent from the instances dict with
    a non-empty region set is appended wholesale to create; otherwise each
    region is routed to update (instance present and needing update), to
    create (instance absent), or skipped (present, not needing update).
    Python iterates the region set in unspecified hash order; the model
    iterates it in ascending order, and every property proved below is
    insensitive to that order. -/
def set_create_or_update_account (instances : List (Nat × Finset Nat)) (remote : Remote)
    (st : List Entry × List Entry) (account : Entry) : List Entry × List Entry :=
  if (instances.lookup account.account).isNone ∧ account.regions ≠ ∅ then
    (st.1 ++ [account], st.2)
  else
    (ascList account.regions).foldl (fun st region =>
      if region ∈ lookupD instances account.account then
        if region_need_update remote account.account region account.override = false then st
        else (st.1, find_or_add_account st.2 account region)
      else (find_or_add_account st.1 account region, st.2)) st

/-- StackSetRollout.collate_instances_create_update: create and update are
    cleared, retrieve loads the instances dict (passed in here), and each
    rollout config entry is classified in order. -/
def collate_instances_create_update (rollout_config : List Entry)
    (instances : List (Nat × Finset Nat)) (remote : Remote) : List Entry × List Entry :=
  rollout_config.foldl (set_create_or_update_account instances remote) ([], [])

def unionAll (l : List (Finset Nat)) : Finset Nat := l.foldl (· ∪ ·) ∅

/-- StackSetRollout.set_delete_account: the regions deleted for one account
    are its existing regions minus the union of the region sets of every
    rollout config entry naming that account; nothing is appended when that
    difference is empty. -/
def set_delete_account (rollout_config : List Entry) (delete : List Entry)
    (account : Nat) (regions : Finset Nat) : List Entry :=
  let rollout_accounts := rollout_config.filter (fun xa => xa.account == account)
  let rollout_regions := unionAll (rollout_accounts.map Entry.regions)
  let delete_regions := regions \ rollout_regions
  if delete_regions ≠ ∅ then delete ++ [⟨account, delete_regions, []⟩] else delete

/-- StackSetRollout.collate_instances_delete: delete is cleared, retrieve
    loads the instances dict, and every account in it is examined. -/
def collate_instances_delete (rollout_config : List Entry)
    (instances : List (Nat × Finset Nat)) : List Entry :=
  instances.foldl (fun del ar => set_delete_account rollout_config del ar.1 ar.2) []

/-! Organization-scoped rollout entries, for StackSetOrganizationRollout. -/

structure OUEntry where
  ou : Nat
  regions : Finset Nat
  override : List Override
deriving DecidableEq

/-- StackSetOrganizationRollout.set_delete_ou, same shape as the account
    variant. -/
def set_delete_ou (rollout_config : List OUEntry) (delete : List OUEntry)
    (ou : Nat) (regions : Finset Nat) : List OUEntry :=
  let rollout_ous := rollout_config.filter (fun xa => xa.ou == ou)
  let rollout_regions := unionAll (rollout_ous.map OUEntry.regions)
  let delete_regions := regions \ rollout_regions
  if delete_regions ≠ ∅ then delete ++ [⟨ou, delete_regions, []⟩] else delete

/-- StackSetOrganizationRollout.collate_instances_delete over the dict of
    stack instances by OU. -/
def collate_instances_delete_ou (rollout_config : List OUEntry)
    (instances : List (Nat × Finset Nat)) : List OUEntry :=
  instances.foldl (fun del ar => set_delete_ou rollout_config del ar.1 ar.2) []

/-! The deployment planner. -/

structure Deployment where
  accounts : List Nat
  regions : Finset Nat
deriving DecidableEq

instance : Inhabited Deployment := ⟨⟨[], ∅⟩⟩

def totalPairs (rollout : List (Nat × Finset Nat)) : Nat :=
  (rollout.map (fun ar => ar.2.card)).sum

def cardGe (x y : Finset Nat) : Prop := y.card ≤ x.card

instance : DecidableRel cardGe := fun x y => Nat.decLe y.card x.card

/-- itertools.combinations: all size-n subsequences of a list, in the
    lexicographic order of positions that itertools yields. -/
def combinations : Nat → List Nat → List (List Nat)
  | 0, _ => [[]]
  | _ + 1, [] => []
  | n + 1, x :: xs => (combinations n xs).map (x :: ·) ++ combinations (n + 1) xs

def intersectAll : List (Finset Nat) → Finset Nat
  | [] => ∅
  | x :: xs => xs.foldl (· ∩ ·) x

/-- Discovery order of the candidate region sets inside
    StackSetRollout.rank_sets: for subset sizes from len(a) down to 2 and
    subsets of the sorted keys in combination order, collect each non-empty
    intersection not yet present; for an empty intersection collect the
    region set of each subset member not yet present. -/
def rank_sets_discovery (a : List (Nat × Finset Nat)) : List (Finset Nat) :=
  let keys := List.insertionSort (· ≤ ·) (a.map Prod.fst)
  ((List.range (a.length - 1)).map (fun j => a.length - j)).foldl (fun ranking i =>
    (combinations i keys).foldl (fun ranking subset =>
      let intersected := intersectAll (subset.map (lookupD a))
      if 0 < intersected.card then
        if intersected ∈ ranking then ranking else ranking ++ [intersected]
      else
        subset.foldl (fun ranking k =>
          if lookupD a k ∈ ranking then ranking else ranking ++ [lookupD a k]) ranking) ranking) []

/-- StackSetRollout.rank_sets: the discovered candidates sorted by
    descending cardinality; Python sorted is stable, as is insertionSort,
    so ties keep discovery order. -/
def rank_sets (a : List (Nat × Finset Nat)) : List (Finset Nat) :=
  List.insertionSort cardGe (rank_sets_discovery a)

/-- StackSetRollout.compute_deployment: one batch naming every account
    whose region set contains xset, plus the residual mapping in original
    order, dropping accounts whose residual is empty. -/
def compute_deployment (initial : List (Nat × Finset Nat)) (xset : Finset Nat) :
    Deployment × List (Nat × Finset Nat) :=
  (⟨(initial.filter (fun ar => decide (xset ⊆ ar.2))).map Prod.fst, xset⟩,
   initial.filterMap (fun ar =>
     if xset ⊆ ar.2 then
       if 0 < (ar.2 \ xset).card then some (ar.1, ar.2 \ xset) else none
     else some ar))

def costLe (p q : Nat × Finset Nat) : Prop := p.1 ≤ q.1

instance : DecidableRel costLe := fun p q => Nat.decLe p.1 q.1

def candidate_sets (rollout : List (Nat × Finset Nat)) : List (Finset Nat) :=
  (rank_sets rollout).filter (fun xs => decide (0 < xs.card))

/-- StackSetRollout.generate_deployments, with the general recursion made
    structural through an explicit bound. On each step with more than one
    account left, every non-empty candidate region set is costed by the
    number of batches its residual needs, the stable ascending sort by cost
    followed by taking the head picks the first candidate with minimal
    cost, its batch is emitted and the loop continues on its residual; with
    at most one account left each account is emitted with its full region
    set. The fuel-zero and empty-candidate fallbacks are unreachable when
    the bound exceeds totalPairs and every region set is non-empty, which
    theorem genD_fuel_stable below makes precise; on inputs with empty
    region sets the Python source does not terminate (or raises), and the
    fallback emits one batch per remaining account. -/
def genD : Nat → List (Nat × Finset Nat) → List Deployment
  | 0, rollout => rollout.map (fun ar => ⟨[ar.1], ar.2⟩)
  | fuel + 1, rollout =>
    if rollout.length ≤ 1 then rollout.map (fun ar => ⟨[ar.1], ar.2⟩)
    else
      let costed_sets := (candidate_sets rollout).map (fun xs =>
        ((genD fuel (compute_deployment rollout xs).2).length, xs))
      match (List.insertionSort costLe costed_sets).head? with
      | none => rollout.map (fun ar => ⟨[ar.1], ar.2⟩)
      | some winner =>
        (compute_deployment rollout winner.2).1 :: genD fuel (compute_deployment rollout winner.2).2

/-- StackSetRollout.generate_deployments at the canonical bound. -/
def generate_deployments (rollout : List (Nat × Finset Nat)) : List Deployment :=
  genD (totalPairs rollout + 1) rollout

/-! Grouping by override fingerprint. -/

structure GroupDeployment where
  override : List Override
  accounts : List Deployment
deriving DecidableEq

def chkLe (a b : Entry) : Prop :=
  strLe (calculate_overrides_checksum a) (calculate_overrides_checksum b) = true

instance : DecidableRel chkLe :=
  fun a b => instDecidableEqBool (strLe (calculate_overrides_checksum a) (calculate_overrides_checksum b)) true

/-- Checksum equality, the grouping key of itertools.groupby. -/
def chkEq (a b : Entry) : Bool :=
  calculate_overrides_checksum a == calculate_overrides_checksum b

/-- itertools.groupby: maximal runs of consecutive elements with equal key. -/
def chunkBy {α : Type} (eq : α → α → Bool) : List α → List (List α)
  | [] => []
  | a :: as =>
    match chunkBy eq as with
    | [] => [[a]]
    | [] :: rest => [a] :: [] :: rest
    | (b :: bs) :: rest =>
      if eq a b then (a :: b :: bs) :: rest else [a] :: (b :: bs) :: rest

/-- Insertion-ordered dict update used to build deployment_accounts:
    setdefault then set union. -/
def upsert : List (Nat × Finset Nat) → Nat → Finset Nat → List (Nat × Finset Nat)
  | [], k, v => [(k, v)]
  | (k', v') :: rest, k, v =>
    if k' = k then (k', v' ∪ v) :: rest else (k', v') :: upsert rest k v

def deployment_accounts_of (group_list : List Entry) : List (Nat × Finset Nat) :=
  group_list.foldl (fun acc xd => upsert acc xd.account xd.regions) []

/-- StackSetRollout.grouped_rollout: sort the collection by override
    checksum, group consecutive equal checksums, and for each group emit
    the override of its first member together with the planner batches for
    the merged account-to-regions mapping of the group. -/
def grouped_rollout (coll : List Entry) : List GroupDeployment :=
  (chunkBy chkEq (List.insertionSort chkLe coll)).map (fun group_list =>
    ⟨(group_list.headD default).override,
     generate_deployments (deployment_accounts_of group_list)⟩)

/-- StackSetRollout.rollout_create_update given the remote reads. -/
def rollout_create_update (rollout_config : List Entry)
    (instances : List (Nat × Finset Nat)) (remote : Remote) :
    List GroupDeployment × List GroupDeployment :=
  let cu := collate_instances_create_update rollout_config instances remote
  (grouped_rollout cu.1, grouped_rollout cu.2)

/-- StackSetRollout.rollout_delete given the remote reads. -/
def rollout_delete (rollout_config : List Entry)
    (instances : List (Nat × Finset Nat)) : List GroupDeployment :=
  grouped_rollout (collate_instances_delete rollout_config instances)

/-! State-threaded variants, modelling the mutable create, update and
    delete accumulator lists of one StackSetRollout object across repeated
    method calls. The clear calls at the top of each collate method discard
    the previous contents, so each fold starts from empty lists. -/

structure RolloutState where
  create : List Entry
  update : List Entry
  delete : List Entry
deriving DecidableEq

def collate_instances_create_update_st (rollout_config : List Entry)
    (instances : List (Nat × Finset Nat)) (remote : Remote) (st : RolloutState) : RolloutState :=
  let cu := rollout_config.foldl (set_create_or_update_account instances remote) ([], [])
  ⟨cu.1, cu.2, st.delete⟩

def collate_instances_delete_st (rollout_config : List Entry)
    (instances : List (Nat × Finset Nat)) (st : RolloutState) : RolloutState :=
  ⟨st.create, st.update, instances.foldl (fun del ar => set_delete_account rollout_config del ar.1 ar.2) []⟩

def rollout_create_update_st (rollout_config : List Entry)
    (instances : List (Nat × Finset Nat)) (remote : Remote) (st : RolloutState) :
    (List GroupDeployment × List GroupDeployment) × RolloutState :=
  let st' := collate_instances_create_update_st rollout_config instances remote st
  ((grouped_rollout st'.create, grouped_rollout st'.update), st')

def rollout_delete_st (rollout_config : List Entry)
    (instances : List (Nat × Finset Nat)) (st : RolloutState) :
    List GroupDeployment × RolloutState :=
  let st' := collate_instances_delete_st rollout_config instances st
  (grouped_rollout st'.delete, st')

/-! Classification projections used to state the partition properties:
    the regions a result list assigns to one target, the desired regions of
    one target, and the skipped regions (the logged-and-dropped branch of
    set_create_or_update_account). -/

def regionsFor (st : List Entry) (t : Nat) : Finset Nat :=
  unionAll ((st.filter (fun e => e.account == t)).map Entry.regions)

def regionsForOU (st : List OUEntry) (t : Nat) : Finset Nat :=
  unionAll ((st.filter (fun e => e.ou == t)).map OUEntry.regions)

def desiredRegions (rollout_config : List Entry) (t : Nat) : Finset Nat :=
  unionAll ((rollout_config.filter (fun e => e.account == t)).map Entry.regions)

def desiredRegionsOU (rollout_config : List OUEntry) (t : Nat) : Finset Nat :=
  unionAll ((rollout_config.filter (fun e => e.ou == t)).map OUEntry.regions)

/-- Regions of one target that one classification pass skips: for each
    config entry of the target, the regions present in the instances dict
    for which region_need_update is false (the continue branch). -/
def skippedRegions (rollout_config : List Entry) (instances : List (Nat × Finset Nat))
    (remote : Remote) (t : Nat) : Finset Nat :=
  unionAll ((rollout_config.filter (fun e => e.account == t)).map (fun e =>
    e.regions.filter (fun r =>
      r ∈ lookupD instances t ∧ region_need_update remote t r e.override = false)))

/-! Pair multisets for the exact-cover statement about the planner. -/

def mappingPairs (M : List (Nat × Finset Nat)) : Multiset (Nat × Nat) :=
  (M.map (fun p => p.2.val.map (fun r => (p.1, r)))).sum

def deploymentPairs (d : Deployment) : Multiset (Nat × Nat) :=
  ((d.accounts.map (fun a => d.regions.val.map (fun r => (a, r)))) : List (Multiset (Nat × Nat))).sum

def batchesPairs (ds : List Deployment) : Multiset (Nat × Nat) :=
  (ds.map deploymentPairs).sum

/-- Number of stack-set operation batches a grouped rollout issues: one per
    Deployment element across every override group. -/
def totalBatches (gds : List GroupDeployment) : Nat :=
  (gds.map (fun g => g.accounts.length)).sum

/-! Model of the retry_pending decorator (CloudformationStackSet). A body
    is a function of the attempt number: each new attempt re-executes the
    whole decorated method, and the decorated rollout methods re-read the
    remote state (collate calls retrieve) on every attempt, which the
    SimState sequence makes explicit. A ClientError is an error code
    string; the decorator retries only OperationInProgressException after
    waiting, and surfaces every other error unchanged. The bound counts the
    attempts the model is allowed to observe; none models a body that is
    still being retried when the bound runs out. -/

structure SimState where
  instances : List (Nat × Finset Nat)
  remote : Remote
  submit_error : Option String

def rollout_accounts_body (rollout_config : List Entry) (states : Nat → SimState)
    (attempt : Nat) : Except String (List GroupDeployment × List GroupDeployment) :=
  let st := states attempt
  let plans := rollout_create_update rollout_config st.instances st.remote
  match st.submit_error with
  | some code => Except.error code
  | none => Except.ok plans

def retry_pending {α : Type} (f : Nat → Except String α) :
    Nat → Nat → Option (Except String α)
  | 0, _ => none
  | fuel + 1, attempt =>
    match f attempt with
    | Except.error code =>
      if code = "OperationInProgressException" then retry_pending f fuel (attempt + 1)
      else some (Except.error code)
    | Except.ok a => some (Except.ok a)

/-! Heap model for the frame property of the classification pass. Python
    entries hold a reference to a mutable region set; the store is the list
    of all allocated sets, an entry holds the index of its set, and
    find_or_add_account allocates a fresh empty set for the copy it appends
    while the wholesale-create branch appends a copy sharing the reference
    of the configuration entry. -/

structure HEntry where
  account : Nat
  regionsRef : Nat
  override : List Override
deriving DecidableEq

abbrev Store := List (Finset Nat)

def readRef (σ : Store) (r : Nat) : Finset Nat := σ.getD r ∅

def writeRef (σ : Store) (r : Nat) (v : Finset Nat) : Store := σ.set r v

/-- Heap-level find_or_add_account: returns the store (extended by a fresh
    empty set when no entry matches), the updated list, and the reference
    of the regions set of the matched or appended entry. -/
def find_or_add_accountH (σ : Store) (coll : List HEntry) (e : HEntry) :
    Store × List HEntry × Nat :=
  match coll.find? (fun xa => xa.account == e.account && xa.override == e.override) with
  | some xa => (σ, coll, xa.regionsRef)
  | none => (σ ++ [∅], coll ++ [⟨e.account, σ.length, e.override⟩], σ.length)

/-- Heap-level set_create_or_update_account: identical control flow to the
    pure model, with region sets read and written through the store. The
    iterated region set is read once, which is faithful because the frame
    theorem below shows the set is never written during the pass. -/
def set_create_or_update_accountH (instances : List (Nat × Finset Nat)) (remote : Remote)
    (st : Store × List HEntry × List HEntry) (e : HEntry) : Store × List HEntry × List HEntry :=
  if (instances.lookup e.account).isNone ∧ readRef st.1 e.regionsRef ≠ ∅ then
    (st.1, st.2.1 ++ [e], st.2.2)
  else
    (ascList (readRef st.1 e.regionsRef)).foldl (fun st region =>
      if region ∈ lookupD instances e.account then
        if region_need_update remote e.account region e.override = false then st
        else
          let r := find_or_add_accountH st.1 st.2.2 e
          (writeRef r.1 r.2.2 (insert region (readRef r.1 r.2.2)), st.2.1, r.2.1)
      else
        let r := find_or_add_accountH st.1 st.2.1 e
        (writeRef r.1 r.2.2 (insert region (readRef r.1 r.2.2)), r.2.1, st.2.2)) st

def collate_instances_create_updateH (rollout_config : List HEntry)
    (instances : List (Nat × Finset Nat)) (remote : Remote) (σ : Store) :
    Store × List HEntry × List HEntry :=
  rollout_config.foldl (set_create_or_update_accountH instances remote) (σ, [], [])

/-- Heap-level set_delete_account: reads the configuration region sets
    through the store and allocates a fresh set for any appended entry. -/
def set_delete_accountH (rollout_config : List HEntry) (σd : Store × List HEntry)
    (account : Nat) (regions : Finset Nat) : Store × List HEntry :=
  let rollout_accounts := rollout_config.filter (fun xa => xa.account == account)
  let rollout_regions := unionAll (rollout_accounts.map (fun xa => readRef σd.1 xa.regionsRef))
  let delete_regions := regions \ rollout_regions
  if delete_regions ≠ ∅ then
    (σd.1 ++ [delete_regions], σd.2 ++ [⟨account, σd.1.length, []⟩])
  else σd

def collate_instances_deleteH (rollout_config : List HEntry)
    (instances : List (Nat × Finset Nat)) (σ : Store) : Store × List HEntry :=
  instances.foldl (fun σd ar => set_delete_accountH rollout_config σd ar.1 ar.2) (σ, [])

/-- Invariant of the heap classification fold relative to the initial store:
    the store only grows, its original cells are untouched, every update
    entry references a set allocated during the pass, and every create entry
    whose account has stack instances does too. Wholesale-create entries,
    whose accounts have no instances, are the only ones sharing a
    configuration reference, and no find_or_add call site can match them
    because those call sites run only for accounts that have instances. -/
def CUInv (instances : List (Nat × Finset Nat)) (σ0 : Store)
    (st : Store × List HEntry × List HEntry) : Prop :=
  σ0.length ≤ st.1.length ∧
  (∀ i, i < σ0.length → st.1[i]? = σ0[i]?) ∧
  (∀ xa ∈ st.2.1, (instances.lookup xa.account).isSome = true → σ0.length ≤ xa.regionsRef) ∧
  (∀ xa ∈ st.2.2, σ0.length ≤ xa.regionsRef)

/-- Regions that one classification pass marks CREATE for a target: the
    union over the create result entries naming that target. -/
def createdRegions (rollout_config : List Entry) (instances : List (Nat × Finset Nat))
    (remote : Remote) (t : Nat) : Finset Nat :=
  regionsFor (collate_instances_create_update rollout_config instances remote).1 t

/-- Regions that one classification pass marks UPDATE for a target. -/
def updatedRegions (rollout_config : List Entry) (instances : List (Nat × Finset Nat))
    (remote : Remote) (t : Nat) : Finset Nat :=
  regionsFor (collate_instances_create_update rollout_config instances remote).2 t

/-- Regions that one classification pass marks DELETE for a target. -/
def deletedRegions (rollout_config : List Entry) (instances : List (Nat × Finset Nat))
    (t : Nat) : Finset Nat :=
  regionsFor (collate_instances_delete rollout_config instances) t

/-- Covering witness shape used by the rank_sets coverage lemma. -/
def xs_covers (a : List (Nat × Finset Nat)) (k : Nat) (p : Nat × Finset Nat) : Prop :=
  p.1 = k ∧ p.2 = lookupD a k

/-! Facts about the lexicographic string order. -/

theorem charLe_eq (a b : Char) (h1 : ¬ a.toNat < b.toNat) (h2 : ¬ b.toNat < a.toNat) : a = b := by
  have h : a.toNat = b.toNat := by omega
  exact Char.ext (UInt32.ext h)

theorem charsLe_total : ∀ a b : List Char, charsLe a b = true ∨ charsLe b a = true := by
  intro a
  induction a with
  | nil => intro b; left; rfl
  | cons x xs ih =>
    intro b
    cases b with
    | nil => right; rfl
    | cons y ys =>
      by_cases h1 : x.toNat < y.toNat
      · left; simp [charsLe, h1]
      · by_cases h2 : y.toNat < x.toNat
        · right; simp [charsLe, h2]
        · rcases ih ys with h | h
          · left; simp [charsLe, h1, h2, h]
          · right; simp [charsLe, h1, h2, h]

theorem charsLe_trans : ∀ a b c : List Char,
    charsLe a b = true → charsLe b c = true → charsLe a c = true := by
  intro a
  induction a with
  | nil => intro b c _ _; rfl
  | cons x xs ih =>
    intro b c hab hbc
    cases b with
    | nil => simp [charsLe] at hab
    | cons y ys =>
      cases c with
      | nil => simp [charsLe] at hbc
      | cons z zs =>
        simp only [charsLe] at hab hbc ⊢
        by_cases hxy : x.toNat < y.toNat
        · by_cases hyz : y.toNat < z.toNat
          · have : x.toNat < z.toNat := by omega
            simp [this]
          · by_cases hzy : z.toNat < y.toNat
            · simp [hyz, hzy] at hbc
            · have hy : y = z := charLe_eq y z hyz hzy
              subst hy
              simp [hxy]
        · by_cases hyx : y.toNat < x.toNat
          · simp [hxy, hyx] at hab
          · have hx : x = y := charLe_eq x y hxy hyx
            subst hx
            rw [if_neg (Nat.lt_irrefl _), if_neg (Nat.lt_irrefl _)] at hab
            by_cases hxz : x.toNat < z.toNat
            · simp [hxz]
            · by_cases hzx : z.toNat < x.toNat
              · simp [hxz, hzx] at hbc
              · rw [if_neg hxz, if_neg hzx] at hbc ⊢
                exact ih ys zs hab hbc

theorem charsLe_antisymm : ∀ a b : List Char,
    charsLe a b = true → charsLe b a = true → a = b := by
  intro a
  induction a with
  | nil =>
    intro b _ hba
    cases b with
    | nil => rfl
    | cons y ys => simp [charsLe] at hba
  | cons x xs ih =>
    intro b hab hba
    cases b with
    | nil => simp [charsLe] at hab
    | cons y ys =>
      simp only [charsLe] at hab hba
      by_cases hxy : x.toNat < y.toNat
      · by_cases hyx : y.toNat < x.toNat
        · omega
        · simp [hxy, hyx] at hba
      · by_cases hyx : y.toNat < x.toNat
        · simp [hxy, hyx] at hab
        · have hx : x = y := charLe_eq x y hxy hyx
          subst hx
          simp only [lt_irrefl, if_false, if_neg] at hab hba
          rw [ih ys hab hba]

theorem strLe_total (a b : String) : strLe a b = true ∨ strLe b a = true :=
  charsLe_total a.toList b.toList

theorem strLe_trans {a b c : String} (hab : strLe a b = true) (hbc : strLe b c = true) :
    strLe a c = true :=
  charsLe_trans a.toList b.toList c.toList hab hbc

theorem strLe_antisymm {a b : String} (hab : strLe a b = true) (hba : strLe b a = true) : a = b :=
  String.ext (charsLe_antisymm a.toList b.toList hab hba)

instance : IsTotal Override fmtLe := ⟨fun a b => strLe_total (fmtKey a) (fmtKey b)⟩

instance : IsTrans Override fmtLe := ⟨fun _ _ _ => strLe_trans⟩

instance : IsTotal Override keyLe := ⟨fun a b => strLe_total a.ParameterKey b.ParameterKey⟩

instance : IsTrans Override keyLe := ⟨fun _ _ _ => strLe_trans⟩

instance : IsTotal Entry chkLe :=
  ⟨fun a b => strLe_total (calculate_overrides_checksum a) (calculate_overrides_checksum b)⟩

instance : IsTrans Entry chkLe := ⟨fun _ _ _ => strLe_trans⟩

instance : IsTotal (Finset Nat) cardGe := ⟨fun x y => Or.symm (Nat.le_total x.card y.card)⟩

instance : IsTrans (Finset Nat) cardGe := ⟨fun _ _ _ h1 h2 => Nat.le_trans h2 h1⟩

instance : IsTotal (Nat × Finset Nat) costLe := ⟨fun p q => Nat.le_total p.1 q.1⟩

instance : IsTrans (Nat × Finset Nat) costLe := ⟨fun _ _ _ => Nat.le_trans⟩

/-! Generic helpers. -/

theorem foldl_preserve {α β : Type} {P : β → Prop} (f : β → α → β)
    (hf : ∀ acc x, P acc → P (f acc x)) :
    ∀ (l : List α) (init : β), P init → P (l.foldl f init) := by
  intro l
  induction l with
  | nil => intro init h; exact h
  | cons x xs ih => intro init h; exact ih (f init x) (hf init x h)

theorem lookup_mem {l : List (Nat × Finset Nat)} {k : Nat} {v : Finset Nat}
    (h : l.lookup k = some v) : (k, v) ∈ l := by
  induction l with
  | nil => simp [List.lookup] at h
  | cons p rest ih =>
    rw [show p = (p.1, p.2) from rfl, List.lookup_cons] at h
    by_cases hk : k = p.1
    · simp [hk] at h
      simp [hk, ← h]
    · have : (k == p.1) = false := by simp [hk]
      simp [this] at h
      exact List.mem_cons_of_mem _ (ih h)

theorem lookup_isSome_of_mem_keys {l : List (Nat × Finset Nat)} {k : Nat}
    (h : k ∈ l.map Prod.fst) : (l.lookup k).isSome := by
  induction l with
  | nil => simp at h
  | cons p rest ih =>
    rw [show p = (p.1, p.2) from rfl, List.lookup_cons]
    by_cases hk : k = p.1
    · simp [hk]
    · have hb : (k == p.1) = false := by simp [hk]
      simp only [hb]
      rw [List.map_cons] at h
      rcases List.mem_cons.mp h with h1 | h2
      · exact absurd h1 hk
      · exact ih h2

theorem mem_unionAll_aux {x : Nat} : ∀ (l : List (Finset Nat)) (acc : Finset Nat),
    x ∈ l.foldl (· ∪ ·) acc ↔ x ∈ acc ∨ ∃ s ∈ l, x ∈ s := by
  intro l
  induction l with
  | nil => intro acc; simp
  | cons s rest ih =>
    intro acc
    rw [List.foldl_cons, ih]
    simp [Finset.mem_union]
    tauto

theorem mem_unionAll {x : Nat} {l : List (Finset Nat)} :
    x ∈ unionAll l ↔ ∃ s ∈ l, x ∈ s := by
  rw [unionAll, mem_unionAll_aux]
  simp

/-! Pair accounting for the planner. -/

theorem mappingPairs_nil : mappingPairs [] = 0 := rfl

theorem mappingPairs_cons (p : Nat × Finset Nat) (M : List (Nat × Finset Nat)) :
    mappingPairs (p :: M) = Multiset.map (fun r => (p.1, r)) p.2.val + mappingPairs M := by
  simp [mappingPairs]

theorem mappingPairs_append (M N : List (Nat × Finset Nat)) :
    mappingPairs (M ++ N) = mappingPairs M + mappingPairs N := by
  simp [mappingPairs]

theorem batchesPairs_cons (d : Deployment) (ds : List Deployment) :
    batchesPairs (d :: ds) = deploymentPairs d + batchesPairs ds := by
  simp [batchesPairs]

theorem deploymentPairs_mk_cons (a : Nat) (l : List Nat) (s : Finset Nat) :
    deploymentPairs ⟨a :: l, s⟩ = Multiset.map (fun r => (a, r)) s.val + deploymentPairs ⟨l, s⟩ := by
  simp [deploymentPairs]

theorem batchesPairs_perEntry : ∀ M : List (Nat × Finset Nat),
    batchesPairs (M.map (fun ar => ⟨[ar.1], ar.2⟩)) = mappingPairs M := by
  intro M
  induction M with
  | nil => rfl
  | cons p rest ih =>
    rw [List.map_cons, batchesPairs_cons, ih, mappingPairs_cons, deploymentPairs_mk_cons]
    have : deploymentPairs ⟨[], p.2⟩ = 0 := rfl
    rw [this, add_zero]

theorem compute_deployment_cons (p : Nat × Finset Nat) (rest : List (Nat × Finset Nat))
    (xset : Finset Nat) :
    compute_deployment (p :: rest) xset =
      if xset ⊆ p.2 then
        (⟨p.1 :: (compute_deployment rest xset).1.accounts, xset⟩,
          (if 0 < (p.2 \ xset).card then [(p.1, p.2 \ xset)] else []) ++
            (compute_deployment rest xset).2)
      else (⟨(compute_deployment rest xset).1.accounts, xset⟩,
        p :: (compute_deployment rest xset).2) := by
  by_cases hc : xset ⊆ p.2 <;> by_cases hr : 0 < (p.2 \ xset).card <;>
    rw [Finset.card_pos] at hr <;>
    simp [compute_deployment, List.filter_cons, List.filterMap_cons, hc, hr]

theorem val_split_of_subset {s t : Finset Nat} (h : s ⊆ t) (f : Nat → Nat × Nat) :
    Multiset.map f t.val = Multiset.map f s.val + Multiset.map f (t \ s).val := by
  rw [Finset.sdiff_val, ← Multiset.map_add]
  congr 1
  rw [add_tsub_cancel_of_le (Finset.val_le_iff.mpr h)]

theorem compute_deployment_pairs (xset : Finset Nat) :
    ∀ M : List (Nat × Finset Nat),
    deploymentPairs (compute_deployment M xset).1 + mappingPairs (compute_deployment M xset).2 =
      mappingPairs M := by
  intro M
  induction M with
  | nil => rfl
  | cons p rest ih =>
    rw [compute_deployment_cons, mappingPairs_cons]
    by_cases hc : xset ⊆ p.2
    · rw [if_pos hc]
      by_cases hr : 0 < (p.2 \ xset).card
      · rw [if_pos hr]
        simp only [deploymentPairs_mk_cons, mappingPairs_append, mappingPairs_cons,
          mappingPairs_nil, add_zero]
        rw [val_split_of_subset hc (fun r => (p.1, r))]
        have := ih
        -- rearrange: (A + D1) + (B + M2) = (A + B) + (D1 + M2)
        calc Multiset.map (fun r => (p.1, r)) xset.val + deploymentPairs (compute_deployment rest xset).1 +
              (Multiset.map (fun r => (p.1, r)) (p.2 \ xset).val + mappingPairs (compute_deployment rest xset).2)
            = Multiset.map (fun r => (p.1, r)) xset.val + Multiset.map (fun r => (p.1, r)) (p.2 \ xset).val +
              (deploymentPairs (compute_deployment rest xset).1 + mappingPairs (compute_deployment rest xset).2) := by
              abel
          _ = Multiset.map (fun r => (p.1, r)) xset.val + Multiset.map (fun r => (p.1, r)) (p.2 \ xset).val +
              mappingPairs rest := by rw [ih]
      · rw [if_neg hr]
        have hempty : p.2 \ xset = ∅ := by
          have := Nat.eq_zero_of_not_pos hr
          exact Finset.card_eq_zero.mp this
        have heq : p.2 = xset :=
          Finset.Subset.antisymm (Finset.sdiff_eq_empty_iff_subset.mp hempty) hc
        simp only [deploymentPairs_mk_cons, List.nil_append]
        rw [heq]
        calc Multiset.map (fun r => (p.1, r)) xset.val + deploymentPairs (compute_deployment rest xset).1 +
              mappingPairs (compute_deployment rest xset).2
            = Multiset.map (fun r => (p.1, r)) xset.val +
              (deploymentPairs (compute_deployment rest xset).1 +
                mappingPairs (compute_deployment rest xset).2) := by abel
          _ = Multiset.map (fun r => (p.1, r)) xset.val + mappingPairs rest := by rw [ih]
    · rw [if_neg hc]
      simp only [mappingPairs_cons]
      calc deploymentPairs ⟨(compute_deployment rest xset).1.accounts, xset⟩ +
            (Multiset.map (fun r => (p.1, r)) p.2.val + mappingPairs (compute_deployment rest xset).2)
          = Multiset.map (fun r => (p.1, r)) p.2.val +
            (deploymentPairs ⟨(compute_deployment rest xset).1.accounts, xset⟩ +
              mappingPairs (compute_deployment rest xset).2) := by abel
        _ = Multiset.map (fun r => (p.1, r)) p.2.val + mappingPairs rest := by
            have hd : deploymentPairs ⟨(compute_deployment rest xset).1.accounts, xset⟩ =
                deploymentPairs (compute_deployment rest xset).1 := by
              simp [deploymentPairs, compute_deployment]
            rw [hd, ih]

theorem batchesPairs_genD : ∀ (fuel : Nat) (M : List (Nat × Finset Nat)),
    batchesPairs (genD fuel M) = mappingPairs M := by
  intro fuel
  induction fuel with
  | zero => intro M; exact batchesPairs_perEntry M
  | succ fuel ih =>
    intro M
    rw [genD]
    by_cases hlen : M.length ≤ 1
    · rw [if_pos hlen]; exact batchesPairs_perEntry M
    · rw [if_neg hlen]
      show batchesPairs
        (match (List.insertionSort costLe (List.map
            (fun xs => ((genD fuel (compute_deployment M xs).2).length, xs)) (candidate_sets M))).head? with
          | none => List.map (fun ar => ⟨[ar.1], ar.2⟩) M
          | some winner => (compute_deployment M winner.2).1 ::
              genD fuel (compute_deployment M winner.2).2) = mappingPairs M
      split
      · exact batchesPairs_perEntry M
      · rw [batchesPairs_cons, ih]
        exact compute_deployment_pairs _ M

theorem batchesPairs_generate_deployments (M : List (Nat × Finset Nat)) :
    batchesPairs (generate_deployments M) = mappingPairs M :=
  batchesPairs_genD _ M

theorem mem_mappingPairs_fst {x : Nat × Nat} : ∀ {M : List (Nat × Finset Nat)},
    x ∈ mappingPairs M → x.1 ∈ M.map Prod.fst := by
  intro M
  induction M with
  | nil => intro h; simp [mappingPairs] at h
  | cons p rest ih =>
    intro h
    rw [mappingPairs_cons, Multiset.mem_add] at h
    rcases h with h | h
    · rcases Multiset.mem_map.mp h with ⟨r, _, hr⟩
      simp [← hr]
    · simp [ih h]

theorem mappingPairs_nodup : ∀ {M : List (Nat × Finset Nat)},
    (M.map Prod.fst).Nodup → (mappingPairs M).Nodup := by
  intro M
  induction M with
  | nil => intro _; simp [mappingPairs]
  | cons p rest ih =>
    intro h
    rw [List.map_cons, List.nodup_cons] at h
    rw [mappingPairs_cons, Multiset.nodup_add]
    refine ⟨?_, ih h.2, ?_⟩
    · exact Multiset.Nodup.map (fun r r' hrr => by simpa using hrr) p.2.nodup
    · rw [Multiset.disjoint_left]
      intro x hx hx'
      rcases Multiset.mem_map.mp hx with ⟨r, _, hr⟩
      have : x.1 ∈ rest.map Prod.fst := mem_mappingPairs_fst hx'
      rw [← hr] at this
      exact h.1 this

/-! Every ranked candidate is contained in the region set of some account,
    hence choosing it strictly shrinks the total pair count. -/

theorem foldl_preserve_mem {α β : Type} {P : β → Prop} (f : β → α → β) :
    ∀ (l : List α), (∀ acc x, x ∈ l → P acc → P (f acc x)) → ∀ init, P init → P (l.foldl f init) := by
  intro l
  induction l with
  | nil => intro _ init h; exact h
  | cons x xs ih =>
    intro hf init h
    exact ih (fun acc y hy => hf acc y (List.mem_cons_of_mem _ hy)) (f init x)
      (hf init x (List.mem_cons_self _ _) h)

theorem combinations_subset : ∀ (l : List Nat) (n : Nat) (s : List Nat),
    s ∈ combinations n l → ∀ x ∈ s, x ∈ l := by
  intro l
  induction l with
  | nil =>
    intro n s hs
    cases n with
    | zero => simp [combinations] at hs; simp [hs]
    | succ n => simp [combinations] at hs
  | cons y ys ih =>
    intro n s hs
    cases n with
    | zero => simp [combinations] at hs; simp [hs]
    | succ n =>
      rw [combinations, List.mem_append] at hs
      rcases hs with hs | hs
      · rcases List.mem_map.mp hs with ⟨t, ht, rfl⟩
        intro x hx
        rcases List.mem_cons.mp hx with rfl | hx
        · exact List.mem_cons_self _ _
        · exact List.mem_cons_of_mem _ (ih n t ht x hx)
      · intro x hx
        exact List.mem_cons_of_mem _ (ih (n + 1) s hs x hx)

theorem foldl_inter_subset : ∀ (vs : List (Finset Nat)) (acc : Finset Nat),
    vs.foldl (· ∩ ·) acc ⊆ acc := by
  intro vs
  induction vs with
  | nil => intro acc; exact Finset.Subset.refl acc
  | cons v vs ih =>
    intro acc
    exact Finset.Subset.trans (ih (acc ∩ v)) Finset.inter_subset_left

theorem lookupD_mem_of_mem_keys {a : List (Nat × Finset Nat)} {k : Nat}
    (h : k ∈ a.map Prod.fst) : ∃ p ∈ a, p.1 = k ∧ p.2 = lookupD a k := by
  have hs := lookup_isSome_of_mem_keys h
  cases hv : a.lookup k with
  | none => rw [hv] at hs; simp at hs
  | some v =>
    refine ⟨(k, v), lookup_mem hv, rfl, ?_⟩
    simp [lookupD, hv]

theorem rank_sets_discovery_covered (a : List (Nat × Finset Nat)) :
    ∀ xs ∈ rank_sets_discovery a, ∃ p ∈ a, xs ⊆ p.2 := by
  have hkey : ∀ k ∈ List.insertionSort (fun x y => x ≤ y) (a.map Prod.fst),
      ∃ p ∈ a, xs_covers a k p := fun k hk =>
    lookupD_mem_of_mem_keys ((List.perm_insertionSort _ _).mem_iff.mp hk)
  rw [rank_sets_discovery]
  refine @foldl_preserve _ _ (fun ranking => ∀ xs ∈ ranking, ∃ p ∈ a, xs ⊆ p.2) _ ?_ _ _ ?_
  · intro ranking i hr
    refine @foldl_preserve_mem _ _ (fun rk => ∀ xs ∈ rk, ∃ p ∈ a, xs ⊆ p.2) _ _ ?_ _ hr
    · intro acc subset hsub hacc
      by_cases hpos : 0 < (intersectAll (subset.map (lookupD a))).card
      · rw [if_pos hpos]
        by_cases hmem : intersectAll (subset.map (lookupD a)) ∈ acc
        · rw [if_pos hmem]; exact hacc
        · rw [if_neg hmem]
          intro xs hxs
          rcases List.mem_append.mp hxs with hxs | hxs
          · exact hacc xs hxs
          · rcases List.mem_singleton.mp hxs with rfl
            cases hsc : subset with
            | nil =>
              rw [hsc] at hpos
              simp [intersectAll] at hpos
            | cons k ks =>
              have hkmem : k ∈ List.insertionSort (fun x y => x ≤ y) (a.map Prod.fst) :=
                combinations_subset _ i subset hsub k (by rw [hsc]; exact List.mem_cons_self _ _)
              rcases hkey k hkmem with ⟨p, hp, _, hpl⟩
              refine ⟨p, hp, ?_⟩
              rw [hpl, List.map_cons, intersectAll]
              exact foldl_inter_subset _ _
      · rw [if_neg hpos]
        refine @foldl_preserve_mem _ _ (fun rk => ∀ xs ∈ rk, ∃ p ∈ a, xs ⊆ p.2) _ _ ?_ _ hacc
        · intro acc2 k hk hacc2
          by_cases hmem : lookupD a k ∈ acc2
          · rw [if_pos hmem]; exact hacc2
          · rw [if_neg hmem]
            intro xs hxs
            rcases List.mem_append.mp hxs with hxs | hxs
            · exact hacc2 xs hxs
            · rcases List.mem_singleton.mp hxs with rfl
              have hkmem : k ∈ List.insertionSort (fun x y => x ≤ y) (a.map Prod.fst) :=
                combinations_subset _ i subset hsub k hk
              rcases hkey k hkmem with ⟨p, hp, _, hpl⟩
              exact ⟨p, hp, by rw [hpl]⟩
  · intro xs hxs
    simp at hxs

theorem totalPairs_cons (p : Nat × Finset Nat) (rest : List (Nat × Finset Nat)) :
    totalPairs (p :: rest) = p.2.card + totalPairs rest := by simp [totalPairs]

theorem totalPairs_compute_le (xset : Finset Nat) :
    ∀ M : List (Nat × Finset Nat), totalPairs (compute_deployment M xset).2 ≤ totalPairs M := by
  intro M
  induction M with
  | nil => exact Nat.le_refl _
  | cons p rest ih =>
    rw [compute_deployment_cons]
    by_cases hc : xset ⊆ p.2
    · rw [if_pos hc]
      by_cases hr : 0 < (p.2 \ xset).card
      · rw [if_pos hr]
        show totalPairs ((p.1, p.2 \ xset) :: (compute_deployment rest xset).2) ≤ _
        rw [totalPairs_cons, totalPairs_cons]
        exact Nat.add_le_add (Finset.card_le_card Finset.sdiff_subset) ih
      · rw [if_neg hr]
        show totalPairs ((compute_deployment rest xset).2) ≤ _
        rw [totalPairs_cons]
        exact Nat.le_trans ih (Nat.le_add_left _ _)
    · rw [if_neg hc]
      show totalPairs (p :: (compute_deployment rest xset).2) ≤ _
      rw [totalPairs_cons, totalPairs_cons]
      exact Nat.add_le_add_left ih _

theorem totalPairs_compute_lt {xset : Finset Nat} (hcard : 0 < xset.card) :
    ∀ {M : List (Nat × Finset Nat)}, (∃ p ∈ M, xset ⊆ p.2) →
    totalPairs (compute_deployment M xset).2 < totalPairs M := by
  intro M
  induction M with
  | nil => intro h; simp at h
  | cons p rest ih =>
    intro h
    rw [compute_deployment_cons]
    by_cases hc : xset ⊆ p.2
    · rw [if_pos hc]
      have hple : xset.card ≤ p.2.card := Finset.card_le_card hc
      by_cases hr : 0 < (p.2 \ xset).card
      · rw [if_pos hr]
        show totalPairs ((p.1, p.2 \ xset) :: (compute_deployment rest xset).2) < _
        rw [totalPairs_cons, totalPairs_cons]
        show (p.2 \ xset).card + totalPairs (compute_deployment rest xset).2 <
          p.2.card + totalPairs rest
        have h1 : (p.2 \ xset).card < p.2.card := by
          rw [Finset.card_sdiff hc]; omega
        have h2 := totalPairs_compute_le xset rest
        omega
      · rw [if_neg hr]
        show totalPairs ((compute_deployment rest xset).2) < _
        rw [totalPairs_cons]
        have h2 := totalPairs_compute_le xset rest
        omega
    · rw [if_neg hc]
      show totalPairs (p :: (compute_deployment rest xset).2) < _
      rw [totalPairs_cons, totalPairs_cons]
      rcases h with ⟨q, hq, hqs⟩
      rcases List.mem_cons.mp hq with rfl | hq
      · exact absurd hqs hc
      · exact Nat.add_lt_add_left (ih ⟨q, hq, hqs⟩) _

theorem candidate_sets_covered {M : List (Nat × Finset Nat)} {xs : Finset Nat}
    (h : xs ∈ candidate_sets M) : (∃ p ∈ M, xs ⊆ p.2) ∧ 0 < xs.card := by
  rcases List.mem_filter.mp h with ⟨h1, h2⟩
  exact ⟨rank_sets_discovery_covered M xs ((List.perm_insertionSort _ _).mem_iff.mp h1),
    by simpa using h2⟩

theorem mem_of_headq_eq_some {α : Type} {l : List α} {w : α} (h : l.head? = some w) : w ∈ l := by
  cases l with
  | nil => simp at h
  | cons x t =>
    simp at h
    rw [h]
    exact List.mem_cons_self _ _

theorem genD_succ (fuel : Nat) (M : List (Nat × Finset Nat)) (h : ¬ M.length ≤ 1) :
    genD (fuel + 1) M =
      match (List.insertionSort costLe ((candidate_sets M).map
          (fun xs => ((genD fuel (compute_deployment M xs).2).length, xs)))).head? with
      | none => M.map (fun ar => ⟨[ar.1], ar.2⟩)
      | some winner => (compute_deployment M winner.2).1 ::
          genD fuel (compute_deployment M winner.2).2 := by
  rw [genD, if_neg h]

/-- The recursion bound is irrelevant once it exceeds the total number of
    pairs: generate_deployments instantiates genD at that canonical bound,
    so genD at any sufficient bound computes generate_deployments. -/
theorem genD_fuel_stable : ∀ (f1 : Nat) (M : List (Nat × Finset Nat)) (f2 : Nat),
    totalPairs M < f1 → totalPairs M < f2 → genD f1 M = genD f2 M := by
  intro f1
  induction f1 with
  | zero => intro M f2 h1 h2; omega
  | succ f1 ih =>
    intro M f2 h1 h2
    cases f2 with
    | zero => omega
    | succ f2 =>
      by_cases hlen : M.length ≤ 1
      · rw [genD, genD, if_pos hlen, if_pos hlen]
      · have hmap : (candidate_sets M).map
            (fun xs => ((genD f1 (compute_deployment M xs).2).length, xs)) =
            (candidate_sets M).map
            (fun xs => ((genD f2 (compute_deployment M xs).2).length, xs)) := by
          apply List.map_congr_left
          intro xs hxs
          rcases candidate_sets_covered hxs with ⟨hcov, hpos⟩
          have hlt := totalPairs_compute_lt hpos hcov
          rw [ih (compute_deployment M xs).2 f2 (by omega) (by omega)]
        rw [genD_succ f1 M hlen, genD_succ f2 M hlen, hmap]
        cases hh : (List.insertionSort costLe ((candidate_sets M).map
            (fun xs => ((genD f2 (compute_deployment M xs).2).length, xs)))).head? with
        | none => rfl
        | some w =>
          have hwmem : w ∈ (candidate_sets M).map
              (fun xs => ((genD f2 (compute_deployment M xs).2).length, xs)) :=
            (List.perm_insertionSort _ _).mem_iff.mp (mem_of_headq_eq_some hh)
          rcases List.mem_map.mp hwmem with ⟨xs, hxs, heq⟩
          have hxs2 : w.2 = xs := by rw [← heq]
          rcases candidate_sets_covered hxs with ⟨hcov, hpos⟩
          rw [← hxs2] at hcov hpos
          have hlt := totalPairs_compute_lt hpos hcov
          show (compute_deployment M w.2).1 :: genD f1 (compute_deployment M w.2).2 =
            (compute_deployment M w.2).1 :: genD f2 (compute_deployment M w.2).2
          congr 1
          exact ih (compute_deployment M w.2).2 f2 (by omega) (by omega)

theorem insertionSort_head_first_min :
    ∀ (l : List (Nat × Finset Nat)) (w : Nat × Finset Nat),
      (List.insertionSort costLe l).head? = some w →
      ∃ l1 l2, l = l1 ++ w :: l2 ∧ (∀ p ∈ l, w.1 ≤ p.1) ∧ ∀ p ∈ l1, w.1 < p.1 := by
  intro l
  induction l with
  | nil => intro w hw; simp [List.insertionSort] at hw
  | cons a t ih =>
    intro w hw
    rw [List.insertionSort] at hw
    cases hs : List.insertionSort costLe t with
    | nil =>
      have ht : t = [] := by
        have hp := List.perm_insertionSort costLe t
        rw [hs] at hp
        exact (hp.symm).eq_nil
      rw [hs, List.orderedInsert_nil] at hw
      simp at hw
      subst hw
      subst ht
      exact ⟨[], [], rfl, by simp [costLe], by simp⟩
    | cons w' s' =>
      have hw' := ih w' (by rw [hs]; rfl)
      rcases hw' with ⟨l1', l2', ht, hmin, hstrict⟩
      rw [hs, List.orderedInsert] at hw
      by_cases hc : costLe a w'
      · rw [if_pos hc] at hw
        simp at hw
        subst hw
        refine ⟨[], t, rfl, ?_, by simp⟩
        intro p hp
        rcases List.mem_cons.mp hp with rfl | hp
        · exact Nat.le_refl _
        · exact Nat.le_trans hc (hmin p hp)
      · rw [if_neg hc] at hw
        simp at hw
        subst hw
        have hlt : w'.1 < a.1 := Nat.lt_of_not_le hc
        refine ⟨a :: l1', l2', by rw [ht]; simp, ?_, ?_⟩
        · intro p hp
          rcases List.mem_cons.mp hp with rfl | hp
          · omega
          · exact hmin p hp
        · intro p hp
          rcases List.mem_cons.mp hp with rfl | hp
          · exact hlt
          · exact hstrict p hp

/-! Stability of the cardinality sort in rank_sets. -/

theorem filter_orderedInsert_card (a : Finset Nat) (n : Nat) :
    ∀ s : List (Finset Nat),
      (List.orderedInsert cardGe a s).filter (fun x => x.card == n) =
        if a.card = n then a :: s.filter (fun x => x.card == n)
        else s.filter (fun x => x.card == n) := by
  intro s
  induction s with
  | nil =>
    rw [List.orderedInsert_nil]
    by_cases h : a.card = n
    · have hb : (a.card == n) = true := by simp [h]
      rw [if_pos h, List.filter_cons, hb]
      simp
    · have hb : (a.card == n) = false := by simp [h]
      rw [if_neg h, List.filter_cons, hb]
      simp
  | cons b t ih =>
    rw [List.orderedInsert]
    by_cases hc : cardGe a b
    · rw [if_pos hc]
      by_cases h : a.card = n
      · have hb : (a.card == n) = true := by simp [h]
        rw [if_pos h, List.filter_cons, hb]
        simp
      · have hb : (a.card == n) = false := by simp [h]
        rw [if_neg h, List.filter_cons, hb]
        simp
    · rw [if_neg hc]
      have hab : a.card < b.card := Nat.lt_of_not_le hc
      rw [List.filter_cons, List.filter_cons, ih]
      by_cases h : a.card = n
      · have hbn : (b.card == n) = false := by
          rw [beq_eq_false_iff_ne]
          omega
        rw [if_pos h, if_pos h, hbn]
        simp
      · rw [if_neg h, if_neg h]

theorem filter_insertionSort_card (n : Nat) :
    ∀ l : List (Finset Nat),
      (List.insertionSort cardGe l).filter (fun x => x.card == n) =
        l.filter (fun x => x.card == n) := by
  intro l
  induction l with
  | nil => rfl
  | cons a t ih =>
    rw [List.insertionSort, filter_orderedInsert_card, ih, List.filter_cons]
    by_cases h : a.card = n
    · have hb : (a.card == n) = true := by simp [h]
      rw [if_pos h, hb]
      simp
    · have hb : (a.card == n) = false := by simp [h]
      rw [if_neg h, hb]
      simp

/-! Runs produced by chunkBy carry a constant key. -/

theorem chunkBy_key_const {α : Type} [Inhabited α] (f : α → String) :
    ∀ (l : List α), ∀ c ∈ chunkBy (fun a b => f a == f b) l, ∀ x ∈ c,
      f x = f (c.headD default) := by
  intro l
  induction l with
  | nil => intro c hc; simp [chunkBy] at hc
  | cons a as ih =>
    intro c hc x hx
    rw [chunkBy] at hc
    cases hrec : chunkBy (fun a b => f a == f b) as with
    | nil =>
      rw [hrec] at hc
      rcases List.mem_singleton.mp hc with rfl
      rcases List.mem_singleton.mp hx with rfl
      rfl
    | cons c0 rest =>
      rw [hrec] at hc
      cases c0 with
      | nil =>
        rcases List.mem_cons.mp hc with rfl | hc
        · rcases List.mem_singleton.mp hx with rfl; rfl
        · rcases List.mem_cons.mp hc with rfl | hc
          · simp at hx
          · exact ih c (by rw [hrec]; exact List.mem_cons_of_mem _ hc) x hx
      | cons b bs =>
        by_cases hab : f a = f b
        · have hba : (f a == f b) = true := by simp [hab]
          simp only [hba, if_true] at hc
          rcases List.mem_cons.mp hc with rfl | hc
          · rcases List.mem_cons.mp hx with rfl | hx
            · rfl
            · have hmem : (b :: bs) ∈ chunkBy (fun a b => f a == f b) as := by
                rw [hrec]; exact List.mem_cons_self _ _
              have := ih (b :: bs) hmem x hx
              simp only [List.headD_cons] at this ⊢
              rw [this, hab]
          · exact ih c (by rw [hrec]; exact List.mem_cons_of_mem _ hc) x hx
        · have hba : (f a == f b) = false := by simp [hab]
          simp only [hba, Bool.false_eq_true, if_false] at hc
          rcases List.mem_cons.mp hc with rfl | hc
          · rcases List.mem_singleton.mp hx with rfl; rfl
          · exact ih c (by rw [hrec]; exact hc) x hx

/-- C1: for every group mapping with distinct targets and non-empty region
    sets, the planner batches form an exact cover of the mapping: counted
    with multiplicity, the (target, region) pairs of all emitted batches
    are exactly the pairs of the mapping, each exactly once; and every
    deployment emitted by grouped_rollout for a fingerprint group carries
    the override of the first group member, whose fingerprint equals the
    fingerprint of every member of that group. -/
theorem C1_planner_exact_cover (M : List (Nat × Finset Nat))
    (hkeys : (M.map Prod.fst).Nodup) (hne : ∀ p ∈ M, p.2 ≠ ∅) (coll : List Entry) :
    (batchesPairs (generate_deployments M) = mappingPairs M ∧
      (batchesPairs (generate_deployments M)).Nodup) ∧
    ∀ gd ∈ grouped_rollout coll,
      ∃ group_list ∈ chunkBy chkEq (List.insertionSort chkLe coll),
        gd.override = (group_list.headD default).override ∧
        gd.accounts = generate_deployments (deployment_accounts_of group_list) ∧
        ∀ m ∈ group_list,
          calculate_overrides_checksum (group_list.headD default) =
            calculate_overrides_checksum m := by
  constructor
  · refine ⟨batchesPairs_generate_deployments M, ?_⟩
    rw [batchesPairs_generate_deployments]
    exact mappingPairs_nodup hkeys
  · intro gd hgd
    rcases List.mem_map.mp hgd with ⟨group_list, hgl, hfn⟩
    refine ⟨group_list, hgl, by rw [← hfn], by rw [← hfn], ?_⟩
    intro m hm
    exact (chunkBy_key_const calculate_overrides_checksum _ group_list hgl m hm).symm

theorem C1_witness :
    (batchesPairs (generate_deployments [(1, ({1, 2} : Finset Nat)), (2, {1})]) =
        mappingPairs [(1, ({1, 2} : Finset Nat)), (2, {1})] ∧
      (batchesPairs (generate_deployments [(1, ({1, 2} : Finset Nat)), (2, {1})])).Nodup) ∧
    ∀ gd ∈ grouped_rollout [⟨1, {1}, []⟩, ⟨2, {2}, []⟩],
      ∃ group_list ∈ chunkBy chkEq (List.insertionSort chkLe [⟨1, {1}, []⟩, ⟨2, {2}, []⟩]),
        gd.override = (group_list.headD default).override ∧
        gd.accounts = generate_deployments (deployment_accounts_of group_list) ∧
        ∀ m ∈ group_list,
          calculate_overrides_checksum (group_list.headD default) =
            calculate_overrides_checksum m :=
  C1_planner_exact_cover [(1, {1, 2}), (2, {1})] (by decide) (by decide)
    [⟨1, {1}, []⟩, ⟨2, {2}, []⟩]

/-- C3: the candidate region sets are ranked by descending cardinality
    with ties kept in discovery order (the sort is stable: filtering the
    ranked list at any fixed cardinality returns the discovery-order
    sublist unchanged), and at each planner step the emitted candidate is
    the first minimal-cost element of the costed list: it splits the
    costed list with only strictly more expensive candidates before it,
    is a global minimum, and the step emits exactly its batch. -/
theorem C3_rank_order_and_tiebreak :
    (∀ a : List (Nat × Finset Nat),
      (rank_sets a).Sorted cardGe ∧
      ∀ n : Nat, (rank_sets a).filter (fun x => x.card == n) =
        (rank_sets_discovery a).filter (fun x => x.card == n)) ∧
    ∀ (fuel : Nat) (rollout : List (Nat × Finset Nat)) (w : Nat × Finset Nat),
      ¬ rollout.length ≤ 1 →
      (List.insertionSort costLe ((candidate_sets rollout).map
        (fun xs => ((genD fuel (compute_deployment rollout xs).2).length, xs)))).head? = some w →
      (∃ l1 l2, (candidate_sets rollout).map
          (fun xs => ((genD fuel (compute_deployment rollout xs).2).length, xs)) = l1 ++ w :: l2 ∧
        (∀ p ∈ l1, w.1 < p.1) ∧
        ∀ p ∈ (candidate_sets rollout).map
          (fun xs => ((genD fuel (compute_deployment rollout xs).2).length, xs)), w.1 ≤ p.1) ∧
      genD (fuel + 1) rollout = (compute_deployment rollout w.2).1 ::
        genD fuel (compute_deployment rollout w.2).2 := by
  constructor
  · intro a
    exact ⟨List.sorted_insertionSort cardGe _, fun n => filter_insertionSort_card n _⟩
  · intro fuel rollout w hlen hw
    rcases insertionSort_head_first_min _ w hw with ⟨l1, l2, hdec, hmin, hstrict⟩
    refine ⟨⟨l1, l2, hdec, hstrict, hmin⟩, ?_⟩
    rw [genD_succ fuel rollout hlen, hw]

theorem C3_witness :
    ((rank_sets [(1, ({1, 2} : Finset Nat)), (2, {1})]).Sorted cardGe ∧
      ∀ n : Nat, (rank_sets [(1, ({1, 2} : Finset Nat)), (2, {1})]).filter (fun x => x.card == n) =
        (rank_sets_discovery [(1, ({1, 2} : Finset Nat)), (2, {1})]).filter
          (fun x => x.card == n)) ∧
    genD 2 [(1, ({1, 2} : Finset Nat)), (2, {1})] =
      (compute_deployment [(1, ({1, 2} : Finset Nat)), (2, {1})] ({1} : Finset Nat)).1 ::
        genD 1 (compute_deployment [(1, ({1, 2} : Finset Nat)), (2, {1})] ({1} : Finset Nat)).2 :=
  ⟨C3_rank_order_and_tiebreak.1 [(1, {1, 2}), (2, {1})],
    (C3_rank_order_and_tiebreak.2 1 [(1, {1, 2}), (2, {1})] (1, {1})
      (by decide) (by decide)).2⟩

/-- C5: for account-scoped rollout, region_need_update returns true exactly
    when the current override list sorted by parameter key differs from the
    desired override list sorted the same way, or the instance status is
    not CURRENT; for organization-scoped rollout ou_region_need_update is
    constantly true. -/
theorem C5_need_update_predicate :
    (∀ (remote : Remote) (account_id region : Nat) (overrides : List Override),
      region_need_update remote account_id region overrides = true ↔
        (List.insertionSort keyLe (remote.overridesAt account_id region) ≠
            List.insertionSort keyLe overrides ∨
          remote.statusAt account_id region ≠ "CURRENT")) ∧
    ∀ (ou_id region : Nat) (overrides : List Override),
      ou_region_need_update ou_id region overrides = true := by
  constructor
  · intro remote a r ovr
    simp only [region_need_update]
    split_ifs with h1 h2
    · simp [h1]
    · simp [h2]
    · simp [h1, h2]
  · intro _ _ _
    rfl

/-- C9: the classification results are independent of the accumulator
    state left by earlier runs: both methods clear and recompute their
    lists, so a second run from the state produced by the first (and a run
    from any other starting state) returns the same create, update and
    delete groupings. -/
theorem C9_classification_idempotent (rollout_config : List Entry)
    (instances : List (Nat × Finset Nat)) (remote : Remote) (st st' : RolloutState) :
    (rollout_create_update_st rollout_config instances remote
        ((rollout_create_update_st rollout_config instances remote st).2)).1 =
      (rollout_create_update_st rollout_config instances remote st).1 ∧
    (rollout_delete_st rollout_config instances
        ((rollout_delete_st rollout_config instances st).2)).1 =
      (rollout_delete_st rollout_config instances st).1 ∧
    (rollout_create_update_st rollout_config instances remote st).1 =
      (rollout_create_update_st rollout_config instances remote st').1 ∧
    (rollout_delete_st rollout_config instances st).1 =
      (rollout_delete_st rollout_config instances st').1 :=
  ⟨rfl, rfl, rfl, rfl⟩

/-- C7: the retry_pending decorator re-runs the whole decorated operation
    after a contention error, so the successful retry returns the plans
    derived from the remote state read on the retry attempt (not the plans
    of the failed attempt); any other error code is surfaced unchanged
    without retrying. -/
theorem C7_retry_rederives_and_propagates (rollout_config : List Entry)
    (states : Nat → SimState) (fuel : Nat)
    (h0 : (states 0).submit_error = some "OperationInProgressException")
    (h1 : (states 1).submit_error = none) :
    retry_pending (rollout_accounts_body rollout_config states) (fuel + 2) 0 =
      some (Except.ok (rollout_create_update rollout_config
        (states 1).instances (states 1).remote)) ∧
    ∀ (states' : Nat → SimState) (code : String), code ≠ "OperationInProgressException" →
      (states' 0).submit_error = some code →
      retry_pending (rollout_accounts_body rollout_config states') (fuel + 2) 0 =
        some (Except.error code) := by
  constructor
  · show retry_pending _ (fuel + 1 + 1) 0 = _
    simp [retry_pending, rollout_accounts_body, h0, h1]
  · intro states' code hne h0'
    show retry_pending _ (fuel + 1 + 1) 0 = _
    simp [retry_pending, rollout_accounts_body, h0', hne]

theorem C7_witness :
    (retry_pending (rollout_accounts_body []
        (fun n => if n = 0 then
          ⟨[], ⟨fun _ _ => [], fun _ _ => "CURRENT"⟩, some "OperationInProgressException"⟩
        else ⟨[(5, {7})], ⟨fun _ _ => [], fun _ _ => "CURRENT"⟩, none⟩)) 2 0 =
      some (Except.ok (rollout_create_update [] [(5, {7})] ⟨fun _ _ => [], fun _ _ => "CURRENT"⟩))) ∧
    retry_pending (rollout_accounts_body []
        (fun _ => ⟨[], ⟨fun _ _ => [], fun _ _ => "CURRENT"⟩, some "AccessDenied"⟩)) 2 0 =
      some (Except.error "AccessDenied") :=
  ⟨(C7_retry_rederives_and_propagates [] _ 0 rfl rfl).1,
    (C7_retry_rederives_and_propagates []
      (fun n => if n = 0 then
        ⟨[], ⟨fun _ _ => [], fun _ _ => "CURRENT"⟩, some "OperationInProgressException"⟩
      else ⟨[(5, {7})], ⟨fun _ _ => [], fun _ _ => "CURRENT"⟩, none⟩) 0 rfl rfl).2
      (fun _ => ⟨[], ⟨fun _ _ => [], fun _ _ => "CURRENT"⟩, some "AccessDenied"⟩)
      "AccessDenied" (by decide) rfl⟩

/-! Checksum properties: sorted lists of a permutation agree when the sort
    keys are pairwise distinct, the digest always has forty characters,
    and equal checksums land in one chunk of the sorted grouping. -/

theorem sorted_perm_nodup_fmtKey_eq :
    ∀ (l1 l2 : List Override), l1.Perm l2 → l1.Sorted fmtLe → l2.Sorted fmtLe →
      (l1.map fmtKey).Nodup → l1 = l2 := by
  intro l1
  induction l1 with
  | nil =>
    intro l2 hp _ _ _
    exact hp.nil_eq
  | cons a t1 ih =>
    intro l2 hp hs1 hs2 hnd
    cases l2 with
    | nil =>
      exact absurd (hp.symm.nil_eq).symm (List.cons_ne_nil a t1)
    | cons b t2 =>
      by_cases hab : a = b
      · subst hab
        have ht : t1.Perm t2 := hp.cons_inv
        rw [ih t2 ht (List.sorted_cons.mp hs1).2 (List.sorted_cons.mp hs2).2
          (by rw [List.map_cons, List.nodup_cons] at hnd; exact hnd.2)]
      · have ha2 : a ∈ t2 := by
          have hm := hp.mem_iff.mp (List.mem_cons_self a t1)
          rcases List.mem_cons.mp hm with h | h
          · exact absurd h hab
          · exact h
        have hb1 : b ∈ t1 := by
          have hm := hp.symm.mem_iff.mp (List.mem_cons_self b t2)
          rcases List.mem_cons.mp hm with h | h
          · exact absurd h.symm hab
          · exact h
        have h1 : fmtLe a b := (List.sorted_cons.mp hs1).1 b hb1
        have h2 : fmtLe b a := (List.sorted_cons.mp hs2).1 a ha2
        have hk : fmtKey a = fmtKey b := strLe_antisymm h1 h2
        exfalso
        rw [List.map_cons, List.nodup_cons] at hnd
        exact hnd.1 (by rw [hk]; exact List.mem_map_of_mem fmtKey hb1)

theorem checksum_perm_invariant (e1 e2 : Entry) (hperm : e1.override.Perm e2.override)
    (hnd : (e1.override.map fmtKey).Nodup) :
    calculate_overrides_checksum e1 = calculate_overrides_checksum e2 := by
  rw [calculate_overrides_checksum, calculate_overrides_checksum]
  by_cases h : e1.override.length = 0
  · rw [if_pos h, if_pos (by rw [← hperm.length_eq]; exact h)]
  · rw [if_neg h, if_neg (by rw [← hperm.length_eq]; exact h)]
    have hsorted : List.insertionSort fmtLe e1.override = List.insertionSort fmtLe e2.override := by
      apply sorted_perm_nodup_fmtKey_eq
      · exact ((List.perm_insertionSort fmtLe e1.override).trans hperm).trans
          (List.perm_insertionSort fmtLe e2.override).symm
      · exact List.sorted_insertionSort fmtLe _
      · exact List.sorted_insertionSort fmtLe _
      · exact (((List.perm_insertionSort fmtLe e1.override).map fmtKey).nodup_iff).mpr hnd
    rw [hsorted]

theorem wordHex_length (w : Nat) : (wordHex w).length = 8 := by
  rw [wordHex, List.length_map, List.length_range]

theorem sha1hex_length (msg : List Nat) : (sha1hex msg).length = 40 := by
  show ((sha1words msg).map wordHex).flatten.length = 40
  rw [List.length_flatten, List.map_map]
  have h8 : ∀ w ∈ sha1words msg, (List.length ∘ wordHex) w = (fun _ => 8) w :=
    fun w _ => wordHex_length w
  rw [List.map_congr_left h8]
  have h5 : (sha1words msg).length = 5 := rfl
  rw [show (fun _ : Nat => 8) = Function.const Nat 8 from rfl, List.map_const, h5]
  decide

theorem checksum_ne_dash (e : Entry) (h : e.override ≠ []) :
    calculate_overrides_checksum e ≠ "-" := by
  rw [calculate_overrides_checksum, if_neg (by rw [List.length_eq_zero]; exact h)]
  intro hcontra
  have hl := sha1hex_length
    (((List.insertionSort fmtLe e.override).map (fun i => utf8Bytes (pyRepr i))).flatten)
  rw [hcontra] at hl
  exact absurd hl (by decide)

theorem chunkBy_cons_head {α : Type} (feq : α → α → Bool) (a : α) (as : List α) :
    ∃ c rest, chunkBy feq (a :: as) = (a :: c) :: rest := by
  rw [chunkBy]
  cases chunkBy feq as with
  | nil => exact ⟨[], [], rfl⟩
  | cons c0 rest =>
    cases c0 with
    | nil => exact ⟨[], [] :: rest, rfl⟩
    | cons b bs =>
      show ∃ c rest2,
        (if feq a b = true then (a :: b :: bs) :: rest else [a] :: (b :: bs) :: rest) =
          (a :: c) :: rest2
      by_cases h : feq a b = true
      · rw [if_pos h]
        exact ⟨b :: bs, rest, rfl⟩
      · rw [if_neg h]
        exact ⟨[], (b :: bs) :: rest, rfl⟩

theorem chunkBy_cons_merge {α : Type} (feq : α → α → Bool) (a b : α) (t : List α)
    (h : feq a b = true) (c : List α) (rest : List (List α))
    (hc : chunkBy feq (b :: t) = (b :: c) :: rest) :
    chunkBy feq (a :: b :: t) = (a :: b :: c) :: rest := by
  rw [chunkBy, hc]
  show (if feq a b = true then (a :: b :: c) :: rest else [a] :: (b :: c) :: rest) =
    (a :: b :: c) :: rest
  rw [if_pos h]

theorem chunkBy_cons_lift {α : Type} (feq : α → α → Bool) (a : α) (as : List α) :
    ∀ c ∈ chunkBy feq as, ∃ c2 ∈ chunkBy feq (a :: as), ∀ z ∈ c, z ∈ c2 := by
  intro c hc
  rw [chunkBy]
  cases hrec : chunkBy feq as with
  | nil => rw [hrec] at hc; simp at hc
  | cons c0 rest =>
    rw [hrec] at hc
    cases c0 with
    | nil =>
      rcases List.mem_cons.mp hc with rfl | hc
      · exact ⟨[], List.mem_cons_of_mem _ (List.mem_cons_self _ _), fun z hz => by simp at hz⟩
      · exact ⟨c, List.mem_cons_of_mem _ (List.mem_cons_of_mem _ hc), fun z hz => hz⟩
    | cons b bs =>
      show ∃ c2 ∈ (if feq a b = true then (a :: b :: bs) :: rest
        else [a] :: (b :: bs) :: rest), ∀ z ∈ c, z ∈ c2
      by_cases h : feq a b = true
      · rw [if_pos h]
        rcases List.mem_cons.mp hc with rfl | hc
        · exact ⟨a :: b :: bs, List.mem_cons_self _ _,
            fun z hz => List.mem_cons_of_mem _ hz⟩
        · exact ⟨c, List.mem_cons_of_mem _ hc, fun z hz => hz⟩
      · rw [if_neg h]
        rcases List.mem_cons.mp hc with rfl | hc
        · exact ⟨b :: bs, List.mem_cons_of_mem _ (List.mem_cons_self _ _), fun z hz => hz⟩
        · exact ⟨c, List.mem_cons_of_mem _ (List.mem_cons_of_mem _ hc), fun z hz => hz⟩

theorem mem_first_chunk_checksum :
    ∀ (t : List Entry) (b : Entry), (b :: t).Sorted chkLe →
      ∀ y ∈ b :: t, calculate_overrides_checksum y = calculate_overrides_checksum b →
      ∀ c rest, chunkBy chkEq (b :: t) = (b :: c) :: rest → y ∈ b :: c := by
  intro t
  induction t with
  | nil =>
    intro b _ y hy _ c rest _
    rcases List.mem_singleton.mp hy with rfl
    exact List.mem_cons_self _ _
  | cons b2 t2 ih =>
    intro b hs y hy hyb c rest hc
    rcases List.mem_cons.mp hy with rfl | hy
    · exact List.mem_cons_self _ _
    · have hbb2 : calculate_overrides_checksum b2 = calculate_overrides_checksum b := by
        have hle1 : chkLe b b2 := (List.sorted_cons.mp hs).1 b2 (List.mem_cons_self _ _)
        rcases List.mem_cons.mp hy with rfl | hy2
        · exact hyb
        · have hle2 : chkLe b2 y := (List.sorted_cons.mp (List.sorted_cons.mp hs).2).1 y hy2
          have : chkLe b2 b := by
            rw [chkLe, hyb] at hle2
            exact hle2
          exact strLe_antisymm this hle1
      have heq : chkEq b b2 = true := by
        rw [chkEq, hbb2]
        simp
      rcases chunkBy_cons_head chkEq b2 t2 with ⟨c2, rest2, hc2⟩
      have hmerge := chunkBy_cons_merge chkEq b b2 t2 heq c2 rest2 hc2
      rw [hmerge] at hc
      injection hc with h1 h2
      injection h1 with h3 h4
      have hyin : y ∈ b2 :: c2 :=
        ih b2 (List.sorted_cons.mp hs).2 y hy (hyb.trans hbb2.symm) c2 rest2 hc2
      rw [← h4]
      exact List.mem_cons_of_mem _ hyin

theorem checksum_same_chunk :
    ∀ l : List Entry, l.Sorted chkLe → ∀ x ∈ l, ∀ y ∈ l,
      calculate_overrides_checksum x = calculate_overrides_checksum y →
      ∃ c ∈ chunkBy chkEq l, x ∈ c ∧ y ∈ c := by
  intro l
  induction l with
  | nil => intro _ x hx; simp at hx
  | cons a as ih =>
    intro hs x hx y hy hxy
    rcases chunkBy_cons_head chkEq a as with ⟨c, rest, hc⟩
    have hfirst : (a :: c) ∈ chunkBy chkEq (a :: as) := by
      rw [hc]; exact List.mem_cons_self _ _
    rcases List.mem_cons.mp hx with hxa | hxmem
    · rcases List.mem_cons.mp hy with hya | hymem
      · refine ⟨a :: c, hfirst, ?_, ?_⟩
        · rw [hxa]; exact List.mem_cons_self _ _
        · rw [hya]; exact List.mem_cons_self _ _
      · have hyc : y ∈ a :: c :=
          mem_first_chunk_checksum as a hs y (List.mem_cons_of_mem _ hymem)
            (by rw [← hxa]; exact hxy.symm) c rest hc
        refine ⟨a :: c, hfirst, ?_, hyc⟩
        rw [hxa]; exact List.mem_cons_self _ _
    · rcases List.mem_cons.mp hy with hya | hymem
      · have hxc : x ∈ a :: c :=
          mem_first_chunk_checksum as a hs x (List.mem_cons_of_mem _ hxmem)
            (by rw [← hya]; exact hxy) c rest hc
        refine ⟨a :: c, hfirst, hxc, ?_⟩
        rw [hya]; exact List.mem_cons_self _ _
      · rcases ih (List.sorted_cons.mp hs).2 x hxmem y hymem hxy with ⟨c2, hc2, hxc2, hyc2⟩
        rcases chunkBy_cons_lift chkEq a as c2 hc2 with ⟨c3, hc3, hsub⟩
        exact ⟨c3, hc3, hsub x hxc2, hsub y hyc2⟩

/-- C4 (amended): calculate_overrides_checksum is invariant under
    permutation of the override entries whenever the format sort keys
    (ParameterKey dash ParameterValue) of the entries are pairwise
    distinct; the empty override collection maps to the reserved dash
    fingerprint and a non-empty one never does; and any two collection
    members with equal checksums always land in the same group of the
    sorted, chunked grouping used by grouped_rollout. The restriction to
    distinct sort keys is forced: with colliding keys the stable sort
    preserves the input order of the tied entries and the digest differs,
    as the counterexample shows. -/
theorem C4_checksum_grouping :
    (∀ e1 e2 : Entry, e1.override.Perm e2.override → (e1.override.map fmtKey).Nodup →
      calculate_overrides_checksum e1 = calculate_overrides_checksum e2) ∧
    (∀ e : Entry, e.override = [] → calculate_overrides_checksum e = "-") ∧
    (∀ e : Entry, e.override ≠ [] → calculate_overrides_checksum e ≠ "-") ∧
    ∀ (coll : List Entry) (x y : Entry), x ∈ coll → y ∈ coll →
      calculate_overrides_checksum x = calculate_overrides_checksum y →
      ∃ c ∈ chunkBy chkEq (List.insertionSort chkLe coll), x ∈ c ∧ y ∈ c := by
  refine ⟨checksum_perm_invariant, ?_, checksum_ne_dash, ?_⟩
  · intro e h
    rw [calculate_overrides_checksum, if_pos (by rw [h]; rfl)]
  · intro coll x y hx hy hxy
    exact checksum_same_chunk (List.insertionSort chkLe coll)
      (List.sorted_insertionSort chkLe coll)
      x ((List.perm_insertionSort chkLe coll).mem_iff.mpr hx)
      y ((List.perm_insertionSort chkLe coll).mem_iff.mpr hy) hxy

set_option maxRecDepth 20000 in
theorem C4_counterexample :
    calculate_overrides_checksum ⟨0, ∅, [⟨"a", "b-c"⟩, ⟨"a-b", "c"⟩]⟩ ≠
      calculate_overrides_checksum ⟨0, ∅, [⟨"a-b", "c"⟩, ⟨"a", "b-c"⟩]⟩ := by
  decide

theorem C4_witness :
    calculate_overrides_checksum ⟨0, ∅, [⟨"a", "1"⟩, ⟨"b", "2"⟩]⟩ =
        calculate_overrides_checksum ⟨0, ∅, [⟨"b", "2"⟩, ⟨"a", "1"⟩]⟩ ∧
    calculate_overrides_checksum ⟨0, ∅, []⟩ = "-" ∧
    calculate_overrides_checksum ⟨0, ∅, [⟨"a", "1"⟩, ⟨"b", "2"⟩]⟩ ≠ "-" ∧
    ∃ c ∈ chunkBy chkEq (List.insertionSort chkLe
        [⟨0, ∅, [⟨"a", "1"⟩, ⟨"b", "2"⟩]⟩, ⟨5, {9}, [⟨"b", "2"⟩, ⟨"a", "1"⟩]⟩]),
      (⟨0, ∅, [⟨"a", "1"⟩, ⟨"b", "2"⟩]⟩ : Entry) ∈ c ∧
      (⟨5, {9}, [⟨"b", "2"⟩, ⟨"a", "1"⟩]⟩ : Entry) ∈ c :=
  ⟨C4_checksum_grouping.1 ⟨0, ∅, [⟨"a", "1"⟩, ⟨"b", "2"⟩]⟩ ⟨0, ∅, [⟨"b", "2"⟩, ⟨"a", "1"⟩]⟩
      (by decide) (by decide),
    C4_checksum_grouping.2.1 ⟨0, ∅, []⟩ rfl,
    C4_checksum_grouping.2.2.1 ⟨0, ∅, [⟨"a", "1"⟩, ⟨"b", "2"⟩]⟩ (by decide),
    C4_checksum_grouping.2.2.2
      [⟨0, ∅, [⟨"a", "1"⟩, ⟨"b", "2"⟩]⟩, ⟨5, {9}, [⟨"b", "2"⟩, ⟨"a", "1"⟩]⟩]
      ⟨0, ∅, [⟨"a", "1"⟩, ⟨"b", "2"⟩]⟩ ⟨5, {9}, [⟨"b", "2"⟩, ⟨"a", "1"⟩]⟩
      (by decide) (by decide)
      (C4_checksum_grouping.1 ⟨0, ∅, [⟨"a", "1"⟩, ⟨"b", "2"⟩]⟩ ⟨5, {9}, [⟨"b", "2"⟩, ⟨"a", "1"⟩]⟩
        (by decide) (by decide))⟩

/-! Membership characterizations of the classification pass. -/

theorem foldl_union_acc : ∀ (l : List (Finset Nat)) (acc : Finset Nat),
    l.foldl (· ∪ ·) acc = acc ∪ unionAll l := by
  intro l
  induction l with
  | nil => intro acc; simp [unionAll]
  | cons s rest ih =>
    intro acc
    rw [List.foldl_cons, ih (acc ∪ s)]
    have h2 : unionAll (s :: rest) = (∅ ∪ s) ∪ unionAll rest := by
      rw [unionAll, List.foldl_cons, ih (∅ ∪ s)]
    rw [h2]
    ext z
    simp [Finset.mem_union]

theorem unionAll_cons (s : Finset Nat) (l : List (Finset Nat)) :
    unionAll (s :: l) = s ∪ unionAll l := by
  rw [unionAll, List.foldl_cons, foldl_union_acc]
  simp

theorem regionsFor_nil (t : Nat) : regionsFor [] t = ∅ := rfl

theorem mem_regionsFor {st : List Entry} {t x : Nat} :
    x ∈ regionsFor st t ↔ ∃ e ∈ st, e.account = t ∧ x ∈ e.regions := by
  rw [regionsFor, mem_unionAll]
  constructor
  · rintro ⟨s, hs, hx⟩
    rcases List.mem_map.mp hs with ⟨e, he, rfl⟩
    rcases List.mem_filter.mp he with ⟨he1, he2⟩
    exact ⟨e, he1, by simpa using he2, hx⟩
  · rintro ⟨e, he, ht, hx⟩
    exact ⟨e.regions, List.mem_map_of_mem _ (List.mem_filter.mpr ⟨he, by simpa using ht⟩), hx⟩

theorem mem_regionsFor_find_or_add (acct : Entry) (region : Nat) :
    ∀ (coll : List Entry) (t x : Nat),
      (x ∈ regionsFor (find_or_add_account coll acct region) t ↔
        x ∈ regionsFor coll t ∨ (acct.account = t ∧ x = region)) := by
  intro coll
  induction coll with
  | nil =>
    intro t x
    rw [find_or_add_account]
    rw [mem_regionsFor, mem_regionsFor]
    simp
  | cons xa rest ih =>
    intro t x
    rw [find_or_add_account]
    by_cases hm : xa.account = acct.account ∧ xa.override = acct.override
    · rw [if_pos hm]
      rw [mem_regionsFor, mem_regionsFor]
      simp only [List.mem_cons]
      constructor
      · rintro ⟨e, he | he, ht, hx⟩
        · rw [he] at ht hx
          simp only [Finset.mem_insert] at hx
          rcases hx with rfl | hx
          · right
            exact ⟨by rw [← hm.1]; exact ht, rfl⟩
          · left
            exact ⟨xa, Or.inl rfl, ht, hx⟩
        · left
          exact ⟨e, Or.inr he, ht, hx⟩
      · rintro (⟨e, he | he, ht, hx⟩ | ⟨hat, hxr⟩)
        · rw [he] at ht hx
          exact ⟨⟨xa.account, insert region xa.regions, xa.override⟩, Or.inl rfl, ht,
            Finset.mem_insert_of_mem hx⟩
        · exact ⟨e, Or.inr he, ht, hx⟩
        · exact ⟨⟨xa.account, insert region xa.regions, xa.override⟩, Or.inl rfl,
            by rw [hm.1]; exact hat, by rw [hxr]; exact Finset.mem_insert_self _ _⟩
    · rw [if_neg hm]
      rw [mem_regionsFor, mem_regionsFor]
      simp only [List.mem_cons]
      constructor
      · rintro ⟨e, he | he, ht, hx⟩
        · left
          exact ⟨e, Or.inl he, ht, hx⟩
        · rcases (ih t x).mp (mem_regionsFor.mpr ⟨e, he, ht, hx⟩) with h | h
          · rcases mem_regionsFor.mp h with ⟨e2, he2, ht2, hx2⟩
            left
            exact ⟨e2, Or.inr he2, ht2, hx2⟩
          · right
            exact h
      · rintro (⟨e, he | he, ht, hx⟩ | ⟨hat, hxr⟩)
        · exact ⟨e, Or.inl he, ht, hx⟩
        · rcases mem_regionsFor.mp ((ih t x).mpr (Or.inl (mem_regionsFor.mpr ⟨e, he, ht, hx⟩)))
            with ⟨e2, he2, ht2, hx2⟩
          exact ⟨e2, Or.inr he2, ht2, hx2⟩
        · rcases mem_regionsFor.mp ((ih t x).mpr (Or.inr ⟨hat, hxr⟩)) with ⟨e2, he2, ht2, hx2⟩
          exact ⟨e2, Or.inr he2, ht2, hx2⟩

theorem mem_regionsFor_append {l1 l2 : List Entry} {t x : Nat} :
    x ∈ regionsFor (l1 ++ l2) t ↔ x ∈ regionsFor l1 t ∨ x ∈ regionsFor l2 t := by
  rw [mem_regionsFor, mem_regionsFor, mem_regionsFor]
  constructor
  · rintro ⟨e, he, ht, hx⟩
    rcases List.mem_append.mp he with h | h
    · exact Or.inl ⟨e, h, ht, hx⟩
    · exact Or.inr ⟨e, h, ht, hx⟩
  · rintro (⟨e, he, ht, hx⟩ | ⟨e, he, ht, hx⟩)
    · exact ⟨e, List.mem_append_left _ he, ht, hx⟩
    · exact ⟨e, List.mem_append_right _ he, ht, hx⟩

theorem fold_regions_mem (instances : List (Nat × Finset Nat)) (remote : Remote) (e : Entry) :
    ∀ (rs : List Nat) (st : List Entry × List Entry) (t x : Nat),
      (x ∈ regionsFor (rs.foldl (fun st region =>
          if region ∈ lookupD instances e.account then
            if region_need_update remote e.account region e.override = false then st
            else (st.1, find_or_add_account st.2 e region)
          else (find_or_add_account st.1 e region, st.2)) st).1 t ↔
        x ∈ regionsFor st.1 t ∨
          (e.account = t ∧ x ∈ rs ∧ x ∉ lookupD instances e.account)) ∧
      (x ∈ regionsFor (rs.foldl (fun st region =>
          if region ∈ lookupD instances e.account then
            if region_need_update remote e.account region e.override = false then st
            else (st.1, find_or_add_account st.2 e region)
          else (find_or_add_account st.1 e region, st.2)) st).2 t ↔
        x ∈ regionsFor st.2 t ∨
          (e.account = t ∧ x ∈ rs ∧ x ∈ lookupD instances e.account ∧
            region_need_update remote e.account x e.override = true)) := by
  intro rs
  induction rs with
  | nil => intro st t x; simp
  | cons r rest ih =>
    intro st t x
    simp only [List.foldl_cons]
    by_cases h1 : r ∈ lookupD instances e.account
    · rw [if_pos h1]
      by_cases h2 : region_need_update remote e.account r e.override = false
      · rw [if_pos h2]
        rcases ih st t x with ⟨ih1, ih2⟩
        constructor
        · rw [ih1]
          constructor
          · rintro (h | ⟨ha, hx, hnl⟩)
            · exact Or.inl h
            · exact Or.inr ⟨ha, List.mem_cons_of_mem _ hx, hnl⟩
          · rintro (h | ⟨ha, hx, hnl⟩)
            · exact Or.inl h
            · rcases List.mem_cons.mp hx with rfl | hx
              · exact absurd h1 hnl
              · exact Or.inr ⟨ha, hx, hnl⟩
        · rw [ih2]
          constructor
          · rintro (h | ⟨ha, hx, hl, hu⟩)
            · exact Or.inl h
            · exact Or.inr ⟨ha, List.mem_cons_of_mem _ hx, hl, hu⟩
          · rintro (h | ⟨ha, hx, hl, hu⟩)
            · exact Or.inl h
            · rcases List.mem_cons.mp hx with rfl | hx
              · rw [h2] at hu
                exact absurd hu (by decide)
              · exact Or.inr ⟨ha, hx, hl, hu⟩
      · rw [if_neg h2]
        have h2t : region_need_update remote e.account r e.override = true := by
          revert h2
          cases region_need_update remote e.account r e.override <;> simp
        rcases ih (st.1, find_or_add_account st.2 e r) t x with ⟨ih1, ih2⟩
        constructor
        · rw [ih1]
          constructor
          · rintro (h | ⟨ha, hx, hnl⟩)
            · exact Or.inl h
            · exact Or.inr ⟨ha, List.mem_cons_of_mem _ hx, hnl⟩
          · rintro (h | ⟨ha, hx, hnl⟩)
            · exact Or.inl h
            · rcases List.mem_cons.mp hx with rfl | hx
              · exact absurd h1 hnl
              · exact Or.inr ⟨ha, hx, hnl⟩
        · rw [ih2]
          rw [show regionsFor (st.1, find_or_add_account st.2 e r).2 t =
            regionsFor (find_or_add_account st.2 e r) t from rfl]
          constructor
          · rintro (h | ⟨ha, hx, hl, hu⟩)
            · rcases (mem_regionsFor_find_or_add e r st.2 t x).mp h with h | ⟨ha, hxr⟩
              · exact Or.inl h
              · exact Or.inr ⟨ha, by rw [hxr]; exact List.mem_cons_self _ _,
                  by rw [hxr]; exact h1, by rw [hxr]; exact h2t⟩
            · exact Or.inr ⟨ha, List.mem_cons_of_mem _ hx, hl, hu⟩
          · rintro (h | ⟨ha, hx, hl, hu⟩)
            · exact Or.inl ((mem_regionsFor_find_or_add e r st.2 t x).mpr (Or.inl h))
            · rcases List.mem_cons.mp hx with rfl | hx
              · exact Or.inl ((mem_regionsFor_find_or_add e _ st.2 t x).mpr (Or.inr ⟨ha, rfl⟩))
              · exact Or.inr ⟨ha, hx, hl, hu⟩
    · rw [if_neg h1]
      rcases ih (find_or_add_account st.1 e r, st.2) t x with ⟨ih1, ih2⟩
      constructor
      · rw [ih1]
        rw [show regionsFor (find_or_add_account st.1 e r, st.2).1 t =
          regionsFor (find_or_add_account st.1 e r) t from rfl]
        constructor
        · rintro (h | ⟨ha, hx, hnl⟩)
          · rcases (mem_regionsFor_find_or_add e r st.1 t x).mp h with h | ⟨ha, hxr⟩
            · exact Or.inl h
            · exact Or.inr ⟨ha, by rw [hxr]; exact List.mem_cons_self _ _,
                by rw [hxr]; exact h1⟩
          · exact Or.inr ⟨ha, List.mem_cons_of_mem _ hx, hnl⟩
        · rintro (h | ⟨ha, hx, hnl⟩)
          · exact Or.inl ((mem_regionsFor_find_or_add e r st.1 t x).mpr (Or.inl h))
          · rcases List.mem_cons.mp hx with rfl | hx
            · exact Or.inl ((mem_regionsFor_find_or_add e _ st.1 t x).mpr (Or.inr ⟨ha, rfl⟩))
            · exact Or.inr ⟨ha, hx, hnl⟩
      · rw [ih2]
        constructor
        · rintro (h | ⟨ha, hx, hl, hu⟩)
          · exact Or.inl h
          · exact Or.inr ⟨ha, List.mem_cons_of_mem _ hx, hl, hu⟩
        · rintro (h | ⟨ha, hx, hl, hu⟩)
          · exact Or.inl h
          · rcases List.mem_cons.mp hx with rfl | hx
            · exact absurd hl h1
            · exact Or.inr ⟨ha, hx, hl, hu⟩

theorem mem_ascList (z : Nat) (s : Finset Nat) : z ∈ ascList s ↔ z ∈ s := by
  rw [ascList]
  simp only [List.mem_filter, List.mem_range, decide_eq_true_eq]
  constructor
  · exact fun h => h.2
  · intro h
    exact ⟨Nat.lt_succ_of_le (@Finset.le_sup _ _ _ _ s id z h), h⟩

theorem set_cu_mem (instances : List (Nat × Finset Nat)) (remote : Remote) (e : Entry)
    (st : List Entry × List Entry) (t x : Nat) :
    (x ∈ regionsFor (set_create_or_update_account instances remote st e).1 t ↔
      x ∈ regionsFor st.1 t ∨
        (e.account = t ∧ x ∈ e.regions ∧ x ∉ lookupD instances e.account)) ∧
    (x ∈ regionsFor (set_create_or_update_account instances remote st e).2 t ↔
      x ∈ regionsFor st.2 t ∨
        (e.account = t ∧ x ∈ e.regions ∧ x ∈ lookupD instances e.account ∧
          region_need_update remote e.account x e.override = true)) := by
  rw [set_create_or_update_account]
  by_cases hw : (instances.lookup e.account).isNone ∧ e.regions ≠ ∅
  · rw [if_pos hw]
    have hL : lookupD instances e.account = ∅ := by
      rw [lookupD]
      cases h : instances.lookup e.account with
      | none => rfl
      | some v => rw [h] at hw; simp at hw
    constructor
    · rw [show ((st.1 ++ [e], st.2) : List Entry × List Entry).1 = st.1 ++ [e] from rfl,
        mem_regionsFor_append]
      have hsing : x ∈ regionsFor [e] t ↔ (e.account = t ∧ x ∈ e.regions) := by
        rw [mem_regionsFor]
        simp
      rw [hsing, hL]
      simp
    · rw [hL]
      simp
  · rw [if_neg hw]
    rcases fold_regions_mem instances remote e (ascList e.regions) st t x with ⟨h1, h2⟩
    have hmemsort : ∀ z : Nat, z ∈ ascList e.regions ↔ z ∈ e.regions :=
      fun z => mem_ascList z e.regions
    constructor
    · rw [h1, hmemsort]
    · rw [h2, hmemsort]

theorem foldl_cu_mem (instances : List (Nat × Finset Nat)) (remote : Remote) :
    ∀ (cfg : List Entry) (st : List Entry × List Entry) (t x : Nat),
      (x ∈ regionsFor (cfg.foldl (set_create_or_update_account instances remote) st).1 t ↔
        x ∈ regionsFor st.1 t ∨
          ∃ e ∈ cfg, e.account = t ∧ x ∈ e.regions ∧ x ∉ lookupD instances t) ∧
      (x ∈ regionsFor (cfg.foldl (set_create_or_update_account instances remote) st).2 t ↔
        x ∈ regionsFor st.2 t ∨
          ∃ e ∈ cfg, e.account = t ∧ x ∈ e.regions ∧ x ∈ lookupD instances t ∧
            region_need_update remote t x e.override = true) := by
  intro cfg
  induction cfg with
  | nil => intro st t x; simp
  | cons e rest ih =>
    intro st t x
    rw [List.foldl_cons]
    rcases ih (set_create_or_update_account instances remote st e) t x with ⟨ih1, ih2⟩
    rcases set_cu_mem instances remote e st t x with ⟨h1, h2⟩
    constructor
    · rw [ih1, h1]
      constructor
      · rintro ((hst | ⟨ha, hx, hnl⟩) | ⟨e2, he2, ht2, hx2, hl2⟩)
        · exact Or.inl hst
        · exact Or.inr ⟨e, List.mem_cons_self _ _, ha, hx, by rw [← ha]; exact hnl⟩
        · exact Or.inr ⟨e2, List.mem_cons_of_mem _ he2, ht2, hx2, hl2⟩
      · rintro (hst | ⟨e2, he2, ht2, hx2, hl2⟩)
        · exact Or.inl (Or.inl hst)
        · rcases List.mem_cons.mp he2 with rfl | he2
          · exact Or.inl (Or.inr ⟨ht2, hx2, by rw [ht2]; exact hl2⟩)
          · exact Or.inr ⟨e2, he2, ht2, hx2, hl2⟩
    · rw [ih2, h2]
      constructor
      · rintro ((hst | ⟨ha, hx, hl, hu⟩) | ⟨e2, he2, ht2, hx2, hl2, hu2⟩)
        · exact Or.inl hst
        · exact Or.inr ⟨e, List.mem_cons_self _ _, ha, hx, by rw [← ha]; exact hl,
            by rw [← ha]; exact hu⟩
        · exact Or.inr ⟨e2, List.mem_cons_of_mem _ he2, ht2, hx2, hl2, hu2⟩
      · rintro (hst | ⟨e2, he2, ht2, hx2, hl2, hu2⟩)
        · exact Or.inl (Or.inl hst)
        · rcases List.mem_cons.mp he2 with rfl | he2
          · exact Or.inl (Or.inr ⟨ht2, hx2, by rw [ht2]; exact hl2, by rw [ht2]; exact hu2⟩)
          · exact Or.inr ⟨e2, he2, ht2, hx2, hl2, hu2⟩

theorem collate_cu_mem (cfg : List Entry) (instances : List (Nat × Finset Nat))
    (remote : Remote) (t x : Nat) :
    (x ∈ regionsFor (collate_instances_create_update cfg instances remote).1 t ↔
      ∃ e ∈ cfg, e.account = t ∧ x ∈ e.regions ∧ x ∉ lookupD instances t) ∧
    (x ∈ regionsFor (collate_instances_create_update cfg instances remote).2 t ↔
      ∃ e ∈ cfg, e.account = t ∧ x ∈ e.regions ∧ x ∈ lookupD instances t ∧
        region_need_update remote t x e.override = true) := by
  rcases foldl_cu_mem instances remote cfg ([], []) t x with ⟨h1, h2⟩
  rw [collate_instances_create_update]
  constructor
  · rw [h1]
    simp [regionsFor_nil]
  · rw [h2]
    simp [regionsFor_nil]

theorem mem_desiredRegions {cfg : List Entry} {t x : Nat} :
    x ∈ desiredRegions cfg t ↔ ∃ e ∈ cfg, e.account = t ∧ x ∈ e.regions :=
  mem_regionsFor

theorem mem_skippedRegions {cfg : List Entry} {instances : List (Nat × Finset Nat)}
    {remote : Remote} {t x : Nat} :
    x ∈ skippedRegions cfg instances remote t ↔
      ∃ e ∈ cfg, e.account = t ∧ x ∈ e.regions ∧ x ∈ lookupD instances t ∧
        region_need_update remote t x e.override = false := by
  rw [skippedRegions, mem_unionAll]
  constructor
  · rintro ⟨s, hs, hx⟩
    rcases List.mem_map.mp hs with ⟨e, he, rfl⟩
    rcases List.mem_filter.mp he with ⟨he1, he2⟩
    rcases Finset.mem_filter.mp hx with ⟨hx1, hx2, hx3⟩
    exact ⟨e, he1, by simpa using he2, hx1, hx2, hx3⟩
  · rintro ⟨e, he, ht, hx, hl, hu⟩
    refine ⟨e.regions.filter (fun r =>
      r ∈ lookupD instances t ∧ region_need_update remote t r e.override = false), ?_, ?_⟩
    · exact List.mem_map_of_mem _ (List.mem_filter.mpr ⟨he, by simpa using ht⟩)
    · exact Finset.mem_filter.mpr ⟨hx, hl, hu⟩

/-! Characterization of the delete pass. -/

theorem filter_account_singleton (e : Entry) (t : Nat) (h : e.account ≠ t) :
    [e].filter (fun e2 => e2.account == t) = [] := by
  rw [List.filter_cons]
  have hb : (e.account == t) = false := by simp [h]
  simp [hb]

theorem set_delete_filter_ne (cfg : List Entry) (del : List Entry) (a : Nat) (r : Finset Nat)
    (t : Nat) (h : a ≠ t) :
    (set_delete_account cfg del a r).filter (fun e => e.account == t) =
      del.filter (fun e => e.account == t) := by
  rw [set_delete_account]
  show (if r \ unionAll ((cfg.filter (fun xa => xa.account == a)).map Entry.regions) ≠ ∅
      then del ++ [⟨a, r \ unionAll ((cfg.filter (fun xa => xa.account == a)).map Entry.regions), []⟩]
      else del).filter (fun e => e.account == t) = del.filter (fun e => e.account == t)
  by_cases hd : r \ unionAll ((cfg.filter (fun xa => xa.account == a)).map Entry.regions) ≠ ∅
  · rw [if_pos hd, List.filter_append, filter_account_singleton _ t h, List.append_nil]
  · rw [if_neg hd]

theorem foldl_delete_filter_not_mem (cfg : List Entry) (t : Nat) :
    ∀ (inst : List (Nat × Finset Nat)) (del : List Entry),
      t ∉ inst.map Prod.fst →
      (inst.foldl (fun del ar => set_delete_account cfg del ar.1 ar.2) del).filter
        (fun e => e.account == t) = del.filter (fun e => e.account == t) := by
  intro inst
  induction inst with
  | nil => intro del _; rfl
  | cons p rest ih =>
    intro del ht
    rw [List.foldl_cons, List.map_cons] at *
    have h1 : p.1 ≠ t := fun hh => ht (by rw [hh]; exact List.mem_cons_self _ _)
    have h2 : t ∉ rest.map Prod.fst := fun hh => ht (List.mem_cons_of_mem _ hh)
    rw [ih _ h2, set_delete_filter_ne cfg del p.1 p.2 t h1]

theorem collate_delete_filter (cfg : List Entry) (t : Nat) (regs : Finset Nat) :
    ∀ (inst : List (Nat × Finset Nat)) (del : List Entry),
      (inst.map Prod.fst).Nodup → (t, regs) ∈ inst →
      (inst.foldl (fun del ar => set_delete_account cfg del ar.1 ar.2) del).filter
          (fun e => e.account == t) =
        del.filter (fun e => e.account == t) ++
          (if regs \ desiredRegions cfg t = ∅ then []
           else [⟨t, regs \ desiredRegions cfg t, []⟩]) := by
  intro inst
  induction inst with
  | nil =>
    intro del _ hmem
    simp at hmem
  | cons p rest ih =>
    intro del hnd hmem
    rw [List.foldl_cons]
    rw [List.map_cons, List.nodup_cons] at hnd
    rcases List.mem_cons.mp hmem with heq | hmem
    · have hp1 : p.1 = t := by rw [← heq]
      have hp2 : p.2 = regs := by rw [← heq]
      have htrest : t ∉ rest.map Prod.fst := by rw [← hp1]; exact hnd.1
      rw [foldl_delete_filter_not_mem cfg t rest _ htrest, hp1, hp2, set_delete_account]
      show (if regs \ desiredRegions cfg t ≠ ∅
          then del ++ [⟨t, regs \ desiredRegions cfg t, []⟩] else del).filter
            (fun e => e.account == t) = _
      by_cases hd : regs \ desiredRegions cfg t = ∅
      · rw [if_neg (by simp [hd]), if_pos hd, List.append_nil]
      · rw [if_pos hd, if_neg hd, List.filter_append]
        congr 1
        rw [List.filter_cons]
        have hb : ((⟨t, regs \ desiredRegions cfg t, []⟩ : Entry).account == t) = true := by simp
        simp [hb]
    · have hp1 : p.1 ≠ t := by
        intro hh
        exact hnd.1 (by rw [hh]; exact List.mem_map_of_mem Prod.fst hmem)
      rw [ih _ hnd.2 hmem, set_delete_filter_ne cfg del p.1 p.2 t hp1]

theorem regionsFor_eq_of_filter (st : List Entry) (t : Nat) :
    regionsFor st t = unionAll ((st.filter (fun e => e.account == t)).map Entry.regions) := rfl

theorem mem_collate_delete (cfg : List Entry) (instances : List (Nat × Finset Nat))
    (hkeys : (instances.map Prod.fst).Nodup) (t x : Nat) :
    x ∈ regionsFor (collate_instances_delete cfg instances) t ↔
      x ∈ lookupD instances t ∧ x ∉ desiredRegions cfg t := by
  by_cases ht : t ∈ instances.map Prod.fst
  · rcases lookupD_mem_of_mem_keys ht with ⟨⟨a, b⟩, hp, hp1, hp2⟩
    simp only at hp1 hp2
    rw [hp1, hp2] at hp
    have hfil := collate_delete_filter cfg t (lookupD instances t) instances [] hkeys hp
    rw [regionsFor_eq_of_filter,
      show collate_instances_delete cfg instances =
        instances.foldl (fun del ar => set_delete_account cfg del ar.1 ar.2) [] from rfl,
      hfil]
    simp only [List.filter_nil, List.nil_append]
    by_cases hd : lookupD instances t \ desiredRegions cfg t = ∅
    · rw [if_pos hd]
      constructor
      · intro hx
        simp [unionAll] at hx
      · rintro ⟨hl, hnd⟩
        have hmem2 : x ∈ lookupD instances t \ desiredRegions cfg t :=
          Finset.mem_sdiff.mpr ⟨hl, hnd⟩
        rw [hd] at hmem2
        simp at hmem2
    · rw [if_neg hd]
      rw [show ([⟨t, lookupD instances t \ desiredRegions cfg t, []⟩] : List Entry).map
          Entry.regions = [lookupD instances t \ desiredRegions cfg t] from rfl, unionAll_cons]
      simp [Finset.mem_sdiff, unionAll]
  · have hnone : instances.lookup t = none := by
      cases h : instances.lookup t with
      | none => rfl
      | some v => exact absurd (List.mem_map_of_mem Prod.fst (lookup_mem h)) ht
    have hL : lookupD instances t = ∅ := by rw [lookupD, hnone]; rfl
    have hfil := foldl_delete_filter_not_mem cfg t instances [] ht
    rw [regionsFor_eq_of_filter,
      show collate_instances_delete cfg instances =
        instances.foldl (fun del ar => set_delete_account cfg del ar.1 ar.2) [] from rfl,
      hfil]
    simp [unionAll, hL]

theorem filter_ou_singleton (e : OUEntry) (t : Nat) (h : e.ou ≠ t) :
    [e].filter (fun e2 => e2.ou == t) = [] := by
  rw [List.filter_cons]
  have hb : (e.ou == t) = false := by simp [h]
  simp [hb]

theorem set_delete_ou_filter_ne (cfg : List OUEntry) (del : List OUEntry) (a : Nat)
    (r : Finset Nat) (t : Nat) (h : a ≠ t) :
    (set_delete_ou cfg del a r).filter (fun e => e.ou == t) =
      del.filter (fun e => e.ou == t) := by
  rw [set_delete_ou]
  show (if r \ unionAll ((cfg.filter (fun xa => xa.ou == a)).map OUEntry.regions) ≠ ∅
      then del ++ [⟨a, r \ unionAll ((cfg.filter (fun xa => xa.ou == a)).map OUEntry.regions), []⟩]
      else del).filter (fun e => e.ou == t) = del.filter (fun e => e.ou == t)
  by_cases hd : r \ unionAll ((cfg.filter (fun xa => xa.ou == a)).map OUEntry.regions) ≠ ∅
  · rw [if_pos hd, List.filter_append, filter_ou_singleton _ t h, List.append_nil]
  · rw [if_neg hd]

theorem foldl_delete_ou_filter_not_mem (cfg : List OUEntry) (t : Nat) :
    ∀ (inst : List (Nat × Finset Nat)) (del : List OUEntry),
      t ∉ inst.map Prod.fst →
      (inst.foldl (fun del ar => set_delete_ou cfg del ar.1 ar.2) del).filter
        (fun e => e.ou == t) = del.filter (fun e => e.ou == t) := by
  intro inst
  induction inst with
  | nil => intro del _; rfl
  | cons p rest ih =>
    intro del ht
    rw [List.foldl_cons, List.map_cons] at *
    have h1 : p.1 ≠ t := fun hh => ht (by rw [hh]; exact List.mem_cons_self _ _)
    have h2 : t ∉ rest.map Prod.fst := fun hh => ht (List.mem_cons_of_mem _ hh)
    rw [ih _ h2, set_delete_ou_filter_ne cfg del p.1 p.2 t h1]

theorem collate_delete_ou_filter (cfg : List OUEntry) (t : Nat) (regs : Finset Nat) :
    ∀ (inst : List (Nat × Finset Nat)) (del : List OUEntry),
      (inst.map Prod.fst).Nodup → (t, regs) ∈ inst →
      (inst.foldl (fun del ar => set_delete_ou cfg del ar.1 ar.2) del).filter
          (fun e => e.ou == t) =
        del.filter (fun e => e.ou == t) ++
          (if regs \ desiredRegionsOU cfg t = ∅ then []
           else [⟨t, regs \ desiredRegionsOU cfg t, []⟩]) := by
  intro inst
  induction inst with
  | nil =>
    intro del _ hmem
    simp at hmem
  | cons p rest ih =>
    intro del hnd hmem
    rw [List.foldl_cons]
    rw [List.map_cons, List.nodup_cons] at hnd
    rcases List.mem_cons.mp hmem with heq | hmem
    · have hp1 : p.1 = t := by rw [← heq]
      have hp2 : p.2 = regs := by rw [← heq]
      have htrest : t ∉ rest.map Prod.fst := by rw [← hp1]; exact hnd.1
      rw [foldl_delete_ou_filter_not_mem cfg t rest _ htrest, hp1, hp2, set_delete_ou]
      show (if regs \ desiredRegionsOU cfg t ≠ ∅
          then del ++ [⟨t, regs \ desiredRegionsOU cfg t, []⟩] else del).filter
            (fun e => e.ou == t) = _
      by_cases hd : regs \ desiredRegionsOU cfg t = ∅
      · rw [if_neg (by simp [hd]), if_pos hd, List.append_nil]
      · rw [if_pos hd, if_neg hd, List.filter_append]
        congr 1
        rw [List.filter_cons]
        have hb : ((⟨t, regs \ desiredRegionsOU cfg t, []⟩ : OUEntry).ou == t) = true := by simp
        simp [hb]
    · have hp1 : p.1 ≠ t := by
        intro hh
        exact hnd.1 (by rw [hh]; exact List.mem_map_of_mem Prod.fst hmem)
      rw [ih _ hnd.2 hmem, set_delete_ou_filter_ne cfg del p.1 p.2 t hp1]

/-- C6: for every target present in the existing instances, the delete
    pass schedules exactly the existing regions minus the union of the
    region sets of ALL desired entries naming that target (across entries
    with different overrides), emitting one entry when that difference is
    non-empty and none at all when the existing regions are fully covered;
    a target with no desired entries loses all its regions since the union
    is then empty. The account-scoped and organization-scoped delete
    passes behave identically. -/
theorem C6_delete_exactly_uncovered (cfg : List Entry) (cfgo : List OUEntry)
    (instances instancesOU : List (Nat × Finset Nat)) (t : Nat) (regs : Finset Nat)
    (hkeys : (instances.map Prod.fst).Nodup) (hmem : (t, regs) ∈ instances)
    (hkeyso : (instancesOU.map Prod.fst).Nodup) (hmemo : (t, regs) ∈ instancesOU) :
    (collate_instances_delete cfg instances).filter (fun e => e.account == t) =
      (if regs \ desiredRegions cfg t = ∅ then []
       else [⟨t, regs \ desiredRegions cfg t, []⟩]) ∧
    (collate_instances_delete_ou cfgo instancesOU).filter (fun e => e.ou == t) =
      (if regs \ desiredRegionsOU cfgo t = ∅ then []
       else [⟨t, regs \ desiredRegionsOU cfgo t, []⟩]) := by
  constructor
  · have h := collate_delete_filter cfg t regs instances [] hkeys hmem
    rw [show collate_instances_delete cfg instances =
      instances.foldl (fun del ar => set_delete_account cfg del ar.1 ar.2) [] from rfl, h]
    simp
  · have h := collate_delete_ou_filter cfgo t regs instancesOU [] hkeyso hmemo
    rw [show collate_instances_delete_ou cfgo instancesOU =
      instancesOU.foldl (fun del ar => set_delete_ou cfgo del ar.1 ar.2) [] from rfl, h]
    simp

theorem C6_witness :
    (collate_instances_delete [⟨1, {1}, [⟨"p", "1"⟩]⟩, ⟨1, {2}, [⟨"p", "2"⟩]⟩]
        [(1, {1, 2, 3}), (5, {9})]).filter (fun e => e.account == 1) =
      (if ({1, 2, 3} : Finset Nat) \
          desiredRegions [⟨1, {1}, [⟨"p", "1"⟩]⟩, ⟨1, {2}, [⟨"p", "2"⟩]⟩] 1 = ∅ then []
       else [⟨1, ({1, 2, 3} : Finset Nat) \
          desiredRegions [⟨1, {1}, [⟨"p", "1"⟩]⟩, ⟨1, {2}, [⟨"p", "2"⟩]⟩] 1, []⟩]) ∧
    (collate_instances_delete_ou [⟨2, {7}, []⟩] [(1, {1, 2, 3}), (5, {9})]).filter
        (fun e => e.ou == 1) =
      (if ({1, 2, 3} : Finset Nat) \ desiredRegionsOU [⟨2, {7}, []⟩] 1 = ∅ then []
       else [⟨1, ({1, 2, 3} : Finset Nat) \ desiredRegionsOU [⟨2, {7}, []⟩] 1, []⟩]) :=
  C6_delete_exactly_uncovered [⟨1, {1}, [⟨"p", "1"⟩]⟩, ⟨1, {2}, [⟨"p", "2"⟩]⟩] [⟨2, {7}, []⟩]
    [(1, {1, 2, 3}), (5, {9})] [(1, {1, 2, 3}), (5, {9})] 1 {1, 2, 3}
    (by decide) (by decide) (by decide) (by decide)

/-- C2 (amended): provided every two desired entries naming the same
    target carry the same override (so the need-update answer for a
    target and region pair is well defined), the CREATE, UPDATE, SKIP and
    DELETE region sets of one classification pass are pairwise disjoint
    for every target, and their union is exactly the union of the target
    existing regions and the target desired regions. Without that proviso
    UPDATE and SKIP can overlap, as the counterexample shows. -/
theorem C2_classification_partition (cfg : List Entry) (instances : List (Nat × Finset Nat))
    (remote : Remote) (t : Nat)
    (hkeys : (instances.map Prod.fst).Nodup)
    (hov : ∀ e1 ∈ cfg, ∀ e2 ∈ cfg, e1.account = e2.account → e1.override = e2.override) :
    (createdRegions cfg instances remote t ∩ updatedRegions cfg instances remote t = ∅ ∧
      createdRegions cfg instances remote t ∩ skippedRegions cfg instances remote t = ∅ ∧
      createdRegions cfg instances remote t ∩ deletedRegions cfg instances t = ∅ ∧
      updatedRegions cfg instances remote t ∩ skippedRegions cfg instances remote t = ∅ ∧
      updatedRegions cfg instances remote t ∩ deletedRegions cfg instances t = ∅ ∧
      skippedRegions cfg instances remote t ∩ deletedRegions cfg instances t = ∅) ∧
    createdRegions cfg instances remote t ∪ updatedRegions cfg instances remote t ∪
        skippedRegions cfg instances remote t ∪ deletedRegions cfg instances t =
      lookupD instances t ∪ desiredRegions cfg t := by
  have hC : ∀ x : Nat, x ∈ createdRegions cfg instances remote t ↔
      ∃ e ∈ cfg, e.account = t ∧ x ∈ e.regions ∧ x ∉ lookupD instances t :=
    fun x => (collate_cu_mem cfg instances remote t x).1
  have hU : ∀ x : Nat, x ∈ updatedRegions cfg instances remote t ↔
      ∃ e ∈ cfg, e.account = t ∧ x ∈ e.regions ∧ x ∈ lookupD instances t ∧
        region_need_update remote t x e.override = true :=
    fun x => (collate_cu_mem cfg instances remote t x).2
  have hD : ∀ x : Nat, x ∈ deletedRegions cfg instances t ↔
      x ∈ lookupD instances t ∧ x ∉ desiredRegions cfg t :=
    fun x => mem_collate_delete cfg instances hkeys t x
  constructor
  · refine ⟨?_, ?_, ?_, ?_, ?_, ?_⟩
    · ext x
      simp only [Finset.mem_inter, Finset.not_mem_empty, iff_false, not_and]
      intro h1 h2
      rcases (hC x).mp h1 with ⟨e1, _, _, _, hn1⟩
      rcases (hU x).mp h2 with ⟨e2, _, _, _, hl2, _⟩
      exact hn1 hl2
    · ext x
      simp only [Finset.mem_inter, Finset.not_mem_empty, iff_false, not_and]
      intro h1 h2
      rcases (hC x).mp h1 with ⟨e1, _, _, _, hn1⟩
      rcases mem_skippedRegions.mp h2 with ⟨e2, _, _, _, hl2, _⟩
      exact hn1 hl2
    · ext x
      simp only [Finset.mem_inter, Finset.not_mem_empty, iff_false, not_and]
      intro h1 h2
      rcases (hC x).mp h1 with ⟨e1, he1, ht1, hx1, _⟩
      exact ((hD x).mp h2).2 (mem_desiredRegions.mpr ⟨e1, he1, ht1, hx1⟩)
    · ext x
      simp only [Finset.mem_inter, Finset.not_mem_empty, iff_false, not_and]
      intro h1 h2
      rcases (hU x).mp h1 with ⟨e1, he1, ht1, hx1, hl1, hu1⟩
      rcases mem_skippedRegions.mp h2 with ⟨e2, he2, ht2, hx2, hl2, hu2⟩
      have hoveq := hov e1 he1 e2 he2 (by rw [ht1, ht2])
      rw [hoveq] at hu1
      rw [hu1] at hu2
      exact absurd hu2 (by decide)
    · ext x
      simp only [Finset.mem_inter, Finset.not_mem_empty, iff_false, not_and]
      intro h1 h2
      rcases (hU x).mp h1 with ⟨e1, he1, ht1, hx1, _⟩
      exact ((hD x).mp h2).2 (mem_desiredRegions.mpr ⟨e1, he1, ht1, hx1⟩)
    · ext x
      simp only [Finset.mem_inter, Finset.not_mem_empty, iff_false, not_and]
      intro h1 h2
      rcases mem_skippedRegions.mp h1 with ⟨e1, he1, ht1, hx1, _⟩
      exact ((hD x).mp h2).2 (mem_desiredRegions.mpr ⟨e1, he1, ht1, hx1⟩)
  · ext x
    simp only [Finset.mem_union]
    constructor
    · rintro (((h | h) | h) | h)
      · rcases (hC x).mp h with ⟨e, he, ht1, hx, _⟩
        exact Or.inr (mem_desiredRegions.mpr ⟨e, he, ht1, hx⟩)
      · rcases (hU x).mp h with ⟨e, he, ht1, hx, _, _⟩
        exact Or.inr (mem_desiredRegions.mpr ⟨e, he, ht1, hx⟩)
      · rcases mem_skippedRegions.mp h with ⟨e, he, ht1, hx, _, _⟩
        exact Or.inr (mem_desiredRegions.mpr ⟨e, he, ht1, hx⟩)
      · exact Or.inl ((hD x).mp h).1
    · rintro (h | h)
      · by_cases hdes : x ∈ desiredRegions cfg t
        · rcases mem_desiredRegions.mp hdes with ⟨e, he, ht1, hx⟩
          by_cases hu : region_need_update remote t x e.override = true
          · exact Or.inl (Or.inl (Or.inr ((hU x).mpr ⟨e, he, ht1, hx, h, hu⟩)))
          · have hu2 : region_need_update remote t x e.override = false := by
              revert hu
              cases region_need_update remote t x e.override <;> simp
            exact Or.inl (Or.inr (mem_skippedRegions.mpr ⟨e, he, ht1, hx, h, hu2⟩))
        · exact Or.inr ((hD x).mpr ⟨h, hdes⟩)
      · rcases mem_desiredRegions.mp h with ⟨e, he, ht1, hx⟩
        by_cases hl : x ∈ lookupD instances t
        · by_cases hu : region_need_update remote t x e.override = true
          · exact Or.inl (Or.inl (Or.inr ((hU x).mpr ⟨e, he, ht1, hx, hl, hu⟩)))
          · have hu2 : region_need_update remote t x e.override = false := by
              revert hu
              cases region_need_update remote t x e.override <;> simp
            exact Or.inl (Or.inr (mem_skippedRegions.mpr ⟨e, he, ht1, hx, hl, hu2⟩))
        · exact Or.inl (Or.inl (Or.inl ((hC x).mpr ⟨e, he, ht1, hx, hl⟩)))

theorem C2_counterexample :
    1 ∈ updatedRegions [⟨1, {1}, [⟨"k", "1"⟩]⟩, ⟨1, {1}, [⟨"k", "2"⟩]⟩] [(1, {1})]
        ⟨fun _ _ => [⟨"k", "2"⟩], fun _ _ => "CURRENT"⟩ 1 ∧
    1 ∈ skippedRegions [⟨1, {1}, [⟨"k", "1"⟩]⟩, ⟨1, {1}, [⟨"k", "2"⟩]⟩] [(1, {1})]
        ⟨fun _ _ => [⟨"k", "2"⟩], fun _ _ => "CURRENT"⟩ 1 ∧
    updatedRegions [⟨1, {1}, [⟨"k", "1"⟩]⟩, ⟨1, {1}, [⟨"k", "2"⟩]⟩] [(1, {1})]
        ⟨fun _ _ => [⟨"k", "2"⟩], fun _ _ => "CURRENT"⟩ 1 ∩
      skippedRegions [⟨1, {1}, [⟨"k", "1"⟩]⟩, ⟨1, {1}, [⟨"k", "2"⟩]⟩] [(1, {1})]
        ⟨fun _ _ => [⟨"k", "2"⟩], fun _ _ => "CURRENT"⟩ 1 ≠ ∅ := by
  decide

theorem C2_witness :
    (createdRegions [⟨1, {1, 2}, [⟨"p", "v"⟩]⟩] [(1, {2, 3})]
        ⟨fun _ _ => [], fun _ _ => "OUTDATED"⟩ 1 ∩ updatedRegions [⟨1, {1, 2}, [⟨"p", "v"⟩]⟩]
        [(1, {2, 3})] ⟨fun _ _ => [], fun _ _ => "OUTDATED"⟩ 1 = ∅ ∧
      createdRegions [⟨1, {1, 2}, [⟨"p", "v"⟩]⟩] [(1, {2, 3})]
        ⟨fun _ _ => [], fun _ _ => "OUTDATED"⟩ 1 ∩ skippedRegions [⟨1, {1, 2}, [⟨"p", "v"⟩]⟩]
        [(1, {2, 3})] ⟨fun _ _ => [], fun _ _ => "OUTDATED"⟩ 1 = ∅ ∧
      createdRegions [⟨1, {1, 2}, [⟨"p", "v"⟩]⟩] [(1, {2, 3})]
        ⟨fun _ _ => [], fun _ _ => "OUTDATED"⟩ 1 ∩ deletedRegions [⟨1, {1, 2}, [⟨"p", "v"⟩]⟩]
        [(1, {2, 3})] 1 = ∅ ∧
      updatedRegions [⟨1, {1, 2}, [⟨"p", "v"⟩]⟩] [(1, {2, 3})]
        ⟨fun _ _ => [], fun _ _ => "OUTDATED"⟩ 1 ∩ skippedRegions [⟨1, {1, 2}, [⟨"p", "v"⟩]⟩]
        [(1, {2, 3})] ⟨fun _ _ => [], fun _ _ => "OUTDATED"⟩ 1 = ∅ ∧
      updatedRegions [⟨1, {1, 2}, [⟨"p", "v"⟩]⟩] [(1, {2, 3})]
        ⟨fun _ _ => [], fun _ _ => "OUTDATED"⟩ 1 ∩ deletedRegions [⟨1, {1, 2}, [⟨"p", "v"⟩]⟩]
        [(1, {2, 3})] 1 = ∅ ∧
      skippedRegions [⟨1, {1, 2}, [⟨"p", "v"⟩]⟩] [(1, {2, 3})]
        ⟨fun _ _ => [], fun _ _ => "OUTDATED"⟩ 1 ∩ deletedRegions [⟨1, {1, 2}, [⟨"p", "v"⟩]⟩]
        [(1, {2, 3})] 1 = ∅) ∧
    createdRegions [⟨1, {1, 2}, [⟨"p", "v"⟩]⟩] [(1, {2, 3})]
        ⟨fun _ _ => [], fun _ _ => "OUTDATED"⟩ 1 ∪ updatedRegions [⟨1, {1, 2}, [⟨"p", "v"⟩]⟩]
        [(1, {2, 3})] ⟨fun _ _ => [], fun _ _ => "OUTDATED"⟩ 1 ∪
        skippedRegions [⟨1, {1, 2}, [⟨"p", "v"⟩]⟩] [(1, {2, 3})]
          ⟨fun _ _ => [], fun _ _ => "OUTDATED"⟩ 1 ∪
        deletedRegions [⟨1, {1, 2}, [⟨"p", "v"⟩]⟩] [(1, {2, 3})] 1 =
      lookupD [(1, {2, 3})] 1 ∪ desiredRegions [⟨1, {1, 2}, [⟨"p", "v"⟩]⟩] 1 :=
  C2_classification_partition [⟨1, {1, 2}, [⟨"p", "v"⟩]⟩] [(1, {2, 3})]
    ⟨fun _ _ => [], fun _ _ => "OUTDATED"⟩ 1 (by decide) (by decide)

/-- C8 (amended): on existing = \x7bacct1: \x7br1, r2\x7d, acct2: \x7br1\x7d\x7d and
    desired = both accounts \x7br1, r2, r3\x7d with one shared override and the
    need-update predicate true everywhere, the update pass shares only the
    region existing in both accounts (r1) across the two accounts and emits
    that batch before the per-account r2 update; the create pass shares r3
    across both accounts before the per-account r2 create; and the planner
    emits exactly four batches, the same number as one batch per account in
    each pass, not strictly fewer. -/
theorem C8_planner_shared_region_batches :
    rollout_create_update
        [⟨1, {1, 2, 3}, [⟨"p", "v"⟩]⟩, ⟨2, {1, 2, 3}, [⟨"p", "v"⟩]⟩]
        [(1, {1, 2}), (2, {1})]
        ⟨fun _ _ => [], fun _ _ => "OUTDATED"⟩ =
      ([⟨[⟨"p", "v"⟩], [⟨[1, 2], {3}⟩, ⟨[2], {2}⟩]⟩],
       [⟨[⟨"p", "v"⟩], [⟨[1, 2], {1}⟩, ⟨[1], {2}⟩]⟩]) ∧
    totalBatches (rollout_create_update
        [⟨1, {1, 2, 3}, [⟨"p", "v"⟩]⟩, ⟨2, {1, 2, 3}, [⟨"p", "v"⟩]⟩]
        [(1, {1, 2}), (2, {1})]
        ⟨fun _ _ => [], fun _ _ => "OUTDATED"⟩).1 +
      totalBatches (rollout_create_update
        [⟨1, {1, 2, 3}, [⟨"p", "v"⟩]⟩, ⟨2, {1, 2, 3}, [⟨"p", "v"⟩]⟩]
        [(1, {1, 2}), (2, {1})]
        ⟨fun _ _ => [], fun _ _ => "OUTDATED"⟩).2 = 4 := by
  set_option maxRecDepth 40000 in decide

theorem C8_counterexample :
    (¬ ∃ g ∈ (rollout_create_update
        [⟨1, {1, 2, 3}, [⟨"p", "v"⟩]⟩, ⟨2, {1, 2, 3}, [⟨"p", "v"⟩]⟩]
        [(1, {1, 2}), (2, {1})]
        ⟨fun _ _ => [], fun _ _ => "OUTDATED"⟩).2,
      ∃ d ∈ g.accounts, d.regions = {1, 2} ∧ 1 ∈ d.accounts ∧ 2 ∈ d.accounts) ∧
    ¬ (totalBatches (rollout_create_update
        [⟨1, {1, 2, 3}, [⟨"p", "v"⟩]⟩, ⟨2, {1, 2, 3}, [⟨"p", "v"⟩]⟩]
        [(1, {1, 2}), (2, {1})]
        ⟨fun _ _ => [], fun _ _ => "OUTDATED"⟩).1 +
      totalBatches (rollout_create_update
        [⟨1, {1, 2, 3}, [⟨"p", "v"⟩]⟩, ⟨2, {1, 2, 3}, [⟨"p", "v"⟩]⟩]
        [(1, {1, 2}), (2, {1})]
        ⟨fun _ _ => [], fun _ _ => "OUTDATED"⟩).2 < 4) := by
  set_option maxRecDepth 40000 in decide

theorem find_or_add_accountH_spec (σ : Store) (coll : List HEntry) (e : HEntry) :
    σ.length ≤ (find_or_add_accountH σ coll e).1.length ∧
    (∀ i, i < σ.length → (find_or_add_accountH σ coll e).1[i]? = σ[i]?) ∧
    ((∃ xa ∈ coll, xa.account = e.account ∧
        (find_or_add_accountH σ coll e).2.2 = xa.regionsRef) ∨
      σ.length ≤ (find_or_add_accountH σ coll e).2.2) ∧
    (∀ xa ∈ (find_or_add_accountH σ coll e).2.1,
      xa ∈ coll ∨ σ.length ≤ xa.regionsRef) := by
  rw [find_or_add_accountH]
  cases h : coll.find? (fun xa => xa.account == e.account && xa.override == e.override) with
  | some xa =>
    have hmem : xa ∈ coll := List.mem_of_find?_eq_some h
    have hp := List.find?_some h
    rw [Bool.and_eq_true, beq_iff_eq, beq_iff_eq] at hp
    exact ⟨Nat.le_refl _, fun i _ => rfl,
      Or.inl ⟨xa, hmem, hp.1, rfl⟩, fun ya hya => Or.inl hya⟩
  | none =>
    refine ⟨?_, ?_, Or.inr (Nat.le_refl _), ?_⟩
    · rw [List.length_append]
      exact Nat.le_add_right _ _
    · intro i hi
      rw [List.getElem?_append, if_pos hi]
    · intro ya hya
      rcases List.mem_append.mp hya with hy | hy
      · exact Or.inl hy
      · rw [List.mem_singleton.mp hy]
        exact Or.inr (Nat.le_refl _)

theorem cu_stepH_inv (instances : List (Nat × Finset Nat)) (remote : Remote)
    (σ0 : Store) (e : HEntry) (region : Nat)
    (hsome : (instances.lookup e.account).isSome = true)
    (st : Store × List HEntry × List HEntry) (hinv : CUInv instances σ0 st) :
    CUInv instances σ0
      (if region ∈ lookupD instances e.account then
        if region_need_update remote e.account region e.override = false then st
        else
          let r := find_or_add_accountH st.1 st.2.2 e
          (writeRef r.1 r.2.2 (insert region (readRef r.1 r.2.2)), st.2.1, r.2.1)
      else
        let r := find_or_add_accountH st.1 st.2.1 e
        (writeRef r.1 r.2.2 (insert region (readRef r.1 r.2.2)), r.2.1, st.2.2)) := by
  obtain ⟨hlen, hpre, hc, hu⟩ := hinv
  by_cases hm : region ∈ lookupD instances e.account
  · rw [if_pos hm]
    by_cases hnu : region_need_update remote e.account region e.override = false
    · rw [if_pos hnu]
      exact ⟨hlen, hpre, hc, hu⟩
    · rw [if_neg hnu]
      show CUInv instances σ0
        (writeRef (find_or_add_accountH st.1 st.2.2 e).1 (find_or_add_accountH st.1 st.2.2 e).2.2
          (insert region (readRef (find_or_add_accountH st.1 st.2.2 e).1
            (find_or_add_accountH st.1 st.2.2 e).2.2)),
         st.2.1, (find_or_add_accountH st.1 st.2.2 e).2.1)
      obtain ⟨flen, fpre, fref, flist⟩ := find_or_add_accountH_spec st.1 st.2.2 e
      have href : σ0.length ≤ (find_or_add_accountH st.1 st.2.2 e).2.2 := by
        rcases fref with ⟨xa, hxa, _, hr⟩ | hr
        · rw [hr]; exact hu xa hxa
        · exact Nat.le_trans hlen hr
      refine ⟨?_, ?_, hc, ?_⟩
      · rw [writeRef, List.length_set]
        exact Nat.le_trans hlen flen
      · intro i hi
        rw [writeRef, List.getElem?_set_ne (Nat.ne_of_gt (Nat.lt_of_lt_of_le hi href)),
          fpre i (Nat.lt_of_lt_of_le hi hlen)]
        exact hpre i hi
      · intro xa hxa
        rcases flist xa hxa with h | h
        · exact hu xa h
        · exact Nat.le_trans hlen h
  · rw [if_neg hm]
    show CUInv instances σ0
      (writeRef (find_or_add_accountH st.1 st.2.1 e).1 (find_or_add_accountH st.1 st.2.1 e).2.2
        (insert region (readRef (find_or_add_accountH st.1 st.2.1 e).1
          (find_or_add_accountH st.1 st.2.1 e).2.2)),
       (find_or_add_accountH st.1 st.2.1 e).2.1, st.2.2)
    obtain ⟨flen, fpre, fref, flist⟩ := find_or_add_accountH_spec st.1 st.2.1 e
    have href : σ0.length ≤ (find_or_add_accountH st.1 st.2.1 e).2.2 := by
      rcases fref with ⟨xa, hxa, hacc, hr⟩ | hr
      · rw [hr]
        refine hc xa hxa ?_
        rw [hacc]
        exact hsome
      · exact Nat.le_trans hlen hr
    refine ⟨?_, ?_, ?_, hu⟩
    · rw [writeRef, List.length_set]
      exact Nat.le_trans hlen flen
    · intro i hi
      rw [writeRef, List.getElem?_set_ne (Nat.ne_of_gt (Nat.lt_of_lt_of_le hi href)),
        fpre i (Nat.lt_of_lt_of_le hi hlen)]
      exact hpre i hi
    · intro xa hxa hs
      rcases flist xa hxa with h | h
      · exact hc xa h hs
      · exact Nat.le_trans hlen h

theorem cu_inner_foldH_inv (instances : List (Nat × Finset Nat)) (remote : Remote)
    (σ0 : Store) (e : HEntry)
    (hsome : (instances.lookup e.account).isSome = true) :
    ∀ (l : List Nat) (st : Store × List HEntry × List HEntry),
      CUInv instances σ0 st →
      CUInv instances σ0 (l.foldl (fun st region =>
        if region ∈ lookupD instances e.account then
          if region_need_update remote e.account region e.override = false then st
          else
            let r := find_or_add_accountH st.1 st.2.2 e
            (writeRef r.1 r.2.2 (insert region (readRef r.1 r.2.2)), st.2.1, r.2.1)
        else
          let r := find_or_add_accountH st.1 st.2.1 e
          (writeRef r.1 r.2.2 (insert region (readRef r.1 r.2.2)), r.2.1, st.2.2)) st) := by
  intro l
  induction l with
  | nil => intro st h; exact h
  | cons region rest ih =>
    intro st h
    rw [List.foldl_cons]
    exact ih _ (cu_stepH_inv instances remote σ0 e region hsome st h)

theorem set_cuH_inv (instances : List (Nat × Finset Nat)) (remote : Remote)
    (σ0 : Store) (e : HEntry) (st : Store × List HEntry × List HEntry)
    (hinv : CUInv instances σ0 st) :
    CUInv instances σ0 (set_create_or_update_accountH instances remote st e) := by
  rw [set_create_or_update_accountH]
  by_cases hw : (instances.lookup e.account).isNone = true ∧ readRef st.1 e.regionsRef ≠ ∅
  · rw [if_pos hw]
    obtain ⟨hlen, hpre, hc, hu⟩ := hinv
    refine ⟨hlen, hpre, ?_, hu⟩
    intro xa hxa hs
    rcases List.mem_append.mp hxa with h | h
    · exact hc xa h hs
    · rw [List.mem_singleton.mp h] at hs
      rw [Option.isNone_iff_eq_none] at hw
      rw [hw.1] at hs
      simp at hs
  · rw [if_neg hw]
    by_cases hsome : (instances.lookup e.account).isSome = true
    · exact cu_inner_foldH_inv instances remote σ0 e hsome _ st hinv
    · have hnone : (instances.lookup e.account).isNone = true := by
        cases h : instances.lookup e.account with
        | none => rfl
        | some v => rw [h] at hsome; simp at hsome
      have hempty : readRef st.1 e.regionsRef = ∅ := by
        by_contra hne
        exact hw ⟨hnone, hne⟩
      rw [hempty]
      have hasc : ascList (∅ : Finset Nat) = [] := by decide
      rw [hasc]
      exact hinv

theorem collate_cuH_inv (rollout_config : List HEntry) (instances : List (Nat × Finset Nat))
    (remote : Remote) (σ : Store) :
    CUInv instances σ (collate_instances_create_updateH rollout_config instances remote σ) := by
  rw [collate_instances_create_updateH]
  have hgen : ∀ (cfg : List HEntry) (st : Store × List HEntry × List HEntry),
      CUInv instances σ st →
      CUInv instances σ (cfg.foldl (set_create_or_update_accountH instances remote) st) := by
    intro cfg
    induction cfg with
    | nil => intro st h; exact h
    | cons e rest ih =>
      intro st h
      rw [List.foldl_cons]
      exact ih _ (set_cuH_inv instances remote σ e st h)
  refine hgen rollout_config (σ, [], []) ⟨Nat.le_refl _, fun i _ => rfl, ?_, ?_⟩
  · intro xa hxa
    exact absurd hxa (List.not_mem_nil xa)
  · intro xa hxa
    exact absurd hxa (List.not_mem_nil xa)

theorem set_deleteH_store (rollout_config : List HEntry) (σd : Store × List HEntry)
    (account : Nat) (regions : Finset Nat) :
    (set_delete_accountH rollout_config σd account regions).1 = σd.1 ∨
    ∃ v, (set_delete_accountH rollout_config σd account regions).1 = σd.1 ++ [v] := by
  rw [set_delete_accountH]
  show (if regions \ unionAll (((rollout_config.filter (fun xa => xa.account == account)).map
      (fun xa => readRef σd.1 xa.regionsRef))) ≠ ∅ then
      (σd.1 ++ [regions \ unionAll (((rollout_config.filter (fun xa => xa.account == account)).map
        (fun xa => readRef σd.1 xa.regionsRef)))], σd.2 ++ [⟨account, σd.1.length, []⟩])
    else σd).1 = σd.1 ∨ _
  by_cases hd : regions \ unionAll (((rollout_config.filter (fun xa => xa.account == account)).map
      (fun xa => readRef σd.1 xa.regionsRef))) ≠ ∅
  · rw [if_pos hd]
    exact Or.inr ⟨_, rfl⟩
  · rw [if_neg hd]
    exact Or.inl rfl

theorem collate_deleteH_prefix (rollout_config : List HEntry)
    (instances : List (Nat × Finset Nat)) (σ : Store) :
    σ.length ≤ (collate_instances_deleteH rollout_config instances σ).1.length ∧
    ∀ i, i < σ.length → (collate_instances_deleteH rollout_config instances σ).1[i]? = σ[i]? := by
  rw [collate_instances_deleteH]
  have hgen : ∀ (l : List (Nat × Finset Nat)) (σd : Store × List HEntry),
      σ.length ≤ σd.1.length → (∀ i, i < σ.length → σd.1[i]? = σ[i]?) →
      σ.length ≤ (l.foldl (fun σd ar =>
        set_delete_accountH rollout_config σd ar.1 ar.2) σd).1.length ∧
      ∀ i, i < σ.length → (l.foldl (fun σd ar =>
        set_delete_accountH rollout_config σd ar.1 ar.2) σd).1[i]? = σ[i]? := by
    intro l
    induction l with
    | nil => intro σd h1 h2; exact ⟨h1, h2⟩
    | cons ar rest ih =>
      intro σd h1 h2
      rw [List.foldl_cons]
      rcases set_deleteH_store rollout_config σd ar.1 ar.2 with h | ⟨v, h⟩
      · exact ih _ (by rw [h]; exact h1) (by rw [h]; exact h2)
      · refine ih _ ?_ ?_
        · rw [h, List.length_append]
          exact Nat.le_trans h1 (Nat.le_add_right _ _)
        · intro i hi
          rw [h, List.getElem?_append, if_pos (Nat.lt_of_lt_of_le hi h1)]
          exact h2 i hi
  exact hgen instances (σ, []) (Nat.le_refl _) (fun i _ => rfl)

/-- C10: one classification pass never mutates the region set of any
    configuration entry. In the heap model the store cells that existed
    before the pass are unchanged by both the create-update collation and
    the delete collation, so every configuration entry reads back exactly
    the regions it held before; overrides are immutable values throughout.
    The proof threads the invariant that every written reference is
    allocated during the pass. -/
theorem C10_classification_frame (rollout_config : List HEntry)
    (instances : List (Nat × Finset Nat)) (remote : Remote) (σ : Store)
    (hrefs : ∀ e ∈ rollout_config, e.regionsRef < σ.length) :
    (∀ i, i < σ.length →
      (collate_instances_create_updateH rollout_config instances remote σ).1[i]? = σ[i]?) ∧
    (∀ i, i < σ.length →
      (collate_instances_deleteH rollout_config instances σ).1[i]? = σ[i]?) ∧
    ∀ e ∈ rollout_config,
      readRef (collate_instances_create_updateH rollout_config instances remote σ).1 e.regionsRef
        = readRef σ e.regionsRef ∧
      readRef (collate_instances_deleteH rollout_config instances σ).1 e.regionsRef
        = readRef σ e.regionsRef := by
  obtain ⟨hl1, hpre, hc1, hu1⟩ := collate_cuH_inv rollout_config instances remote σ
  obtain ⟨hl2, hdel⟩ := collate_deleteH_prefix rollout_config instances σ
  refine ⟨hpre, hdel, ?_⟩
  intro e he
  constructor
  · rw [readRef, readRef, List.getD_eq_getElem?_getD, List.getD_eq_getElem?_getD,
      hpre e.regionsRef (hrefs e he)]
  · rw [readRef, readRef, List.getD_eq_getElem?_getD, List.getD_eq_getElem?_getD,
      hdel e.regionsRef (hrefs e he)]

theorem C10_witness :
    readRef (collate_instances_create_updateH [⟨1, 0, [⟨"p", "v"⟩]⟩] [(1, {1})]
        ⟨fun _ _ => [], fun _ _ => "OUTDATED"⟩ [{1, 2}]).1 0 = readRef [{1, 2}] 0 ∧
    readRef (collate_instances_deleteH [⟨1, 0, [⟨"p", "v"⟩]⟩] [(1, {1})] [{1, 2}]).1 0 =
      readRef [{1, 2}] 0 :=
  (C10_classification_frame [⟨1, 0, [⟨"p", "v"⟩]⟩] [(1, {1})]
      ⟨fun _ _ => [], fun _ _ => "OUTDATED"⟩ [{1, 2}] (by decide)).2.2
    ⟨1, 0, [⟨"p", "v"⟩]⟩ (by decide)
